import Mathlib

set_option maxRecDepth 40000

/-!
# Verification of the fixed-capacity container patterns

Shallow embedding of the container implementations of the repository
`workshop-project-architecture` (C sources), together with the theorems
settling the stated correctness claims.

Modelling conventions:
* C arrays of a fixed compile-time length are modelled as `List`s; an array
  write `a[i] = x` becomes `l.set i x`, a read `a[i]` becomes `l.getD i d`.
* `size_t` / unsigned arithmetic is `Nat` arithmetic; where a value can wrap
  around it is reduced `% 2 ^ 64` (resp. `% 2 ^ 32` for `uint32_t`) exactly as
  the corresponding C expression does.  For ring-buffer indices the extra
  wrap is dropped because every capacity in the repository divides `2 ^ 64`,
  so `((i + 1) % 2 ^ 64) % cap = (i + 1) % cap`.
* C strings (`char*` contents up to the terminating NUL) are modelled as
  `List Nat` of their bytes; `strcmp == 0` is list equality, and
  `strncpy(dst, src, n - 1); dst[n - 1] = 0` stores `src.take (n - 1)`.
* A fallible C function returning a value through an out-parameter is a Lean
  function returning `Option`; a returned pointer into a backing array is the
  corresponding element index (for pools) or byte offset (for the arena).
* `float` payloads are only ever stored and copied by the functions treated
  here, never computed with, so they are modelled as opaque machine words
  (`Nat`).
-/

namespace CArr

/-- Read-after-write on the written cell. -/
theorem getD_set_self {α : Type} (l : List α) (i : Nat) (x d : α)
    (h : i < l.length) : (l.set i x).getD i d = x := by
  simp [List.getD_eq_getElem?_getD, List.getElem?_set_self', h]

/-- Read-after-write on an untouched cell. -/
theorem getD_set_ne {α : Type} (l : List α) (i j : Nat) (x d : α)
    (h : i ≠ j) : (l.set i x).getD j d = l.getD j d := by
  simp [List.getD_eq_getElem?_getD, List.getElem?_set_ne h]

theorem take_succ_getD {α : Type} (l : List α) (n : Nat) (d : α)
    (h : n < l.length) : l.take (n + 1) = l.take n ++ [l.getD n d] := by
  rw [List.take_succ]
  simp [List.getElem?_eq_getElem h, List.getD_eq_getElem?_getD]

/-- Two probe offsets below the capacity that land on the same cell are
equal. -/
theorem probe_inj {cap r i j : Nat} (hi : i < cap) (hj : j < cap)
    (h : (r + i) % cap = (r + j) % cap) : i = j := by
  have h2 : i % cap = j % cap := Nat.ModEq.add_left_cancel' r h
  rwa [Nat.mod_eq_of_lt hi, Nat.mod_eq_of_lt hj] at h2

/-- The contents of a circular buffer `buf` holding `cnt` items starting at
read position `r`, oldest first. -/
def contents {α : Type} (cap : Nat) (buf : List α) (r cnt : Nat) (d : α) :
    List α :=
  (List.range cnt).map (fun i => buf.getD ((r + i) % cap) d)

@[simp]
theorem contents_zero {α : Type} (cap : Nat) (buf : List α) (r : Nat) (d : α) :
    contents cap buf r 0 d = [] := rfl

/-- Writing at the cell one past the stored items appends to the contents. -/
theorem contents_write {α : Type} (cap : Nat) (buf : List α) (r cnt : Nat)
    (d x : α) (hlen : buf.length = cap) (hcnt : cnt < cap) :
    contents cap (buf.set ((r + cnt) % cap) x) r (cnt + 1) d =
      contents cap buf r cnt d ++ [x] := by
  have hcap : 0 < cap := Nat.pos_of_ne_zero (by omega)
  unfold contents
  rw [List.range_succ, List.map_append, List.map_singleton]
  congr 1
  · apply List.map_congr_left
    intro i hi
    have hi' : i < cnt := List.mem_range.mp hi
    refine getD_set_ne _ _ _ _ _ fun h => ?_
    exact absurd (probe_inj hcnt (hi'.trans hcnt) h) (by omega)
  · have hlt : (r + cnt) % cap < buf.length := by
      rw [hlen]; exact Nat.mod_lt _ hcap
    rw [getD_set_self _ _ _ _ hlt]

/-- Reading at the read position takes the head of the contents. -/
theorem contents_read {α : Type} (cap : Nat) (buf : List α) (r cnt : Nat)
    (d : α) (hr : r < cap) :
    contents cap buf r (cnt + 1) d =
      buf.getD r d :: contents cap buf ((r + 1) % cap) cnt d := by
  unfold contents
  rw [List.range_succ_eq_map, List.map_cons, List.map_map]
  congr 1
  · rw [Nat.add_zero, Nat.mod_eq_of_lt hr]
  · apply List.map_congr_left
    intro i _
    show buf.getD ((r + (i + 1)) % cap) d = buf.getD (((r + 1) % cap + i) % cap) d
    rw [Nat.mod_add_mod]
    congr 2
    omega

end CArr

/-!
## `src/c/nasa-rules/rule02_loop_bounds.c` — RingBuffer
-/

namespace Rule02

def MAX_BUFFER_SIZE : Nat := 256

/-- `RingBuffer`: `uint8_t data[MAX_BUFFER_SIZE]` with `size_t` head, tail,
count. -/
structure RingBuffer where
  data : List Nat
  head : Nat
  tail : Nat
  count : Nat
deriving DecidableEq

/-- `ring_buffer_init` resets the indices of an existing buffer (the byte
array itself is untouched by the C code). -/
def ring_buffer_init (rb : RingBuffer) : RingBuffer :=
  { rb with head := 0, tail := 0, count := 0 }

/-- `ring_buffer_write`: reject when full, otherwise store at `head`, advance
`head`, increment `count`. -/
def ring_buffer_write (rb : RingBuffer) (byte : Nat) : Bool × RingBuffer :=
  if rb.count ≥ MAX_BUFFER_SIZE then (false, rb)
  else
    (true, { rb with
      data := rb.data.set rb.head byte,
      head := (rb.head + 1) % MAX_BUFFER_SIZE,
      count := rb.count + 1 })

/-- `ring_buffer_read`: reject when empty, otherwise read at `tail`, advance
`tail`, decrement `count`. -/
def ring_buffer_read (rb : RingBuffer) : Option Nat × RingBuffer :=
  if rb.count = 0 then (none, rb)
  else
    (some (rb.data.getD rb.tail 0),
     { rb with
       tail := (rb.tail + 1) % MAX_BUFFER_SIZE,
       count := rb.count - 1 })

/-- Writing a whole list of bytes in order, collecting each call's result. -/
def ring_buffer_writeList (rb : RingBuffer) :
    List Nat → List Bool × RingBuffer
  | [] => ([], rb)
  | b :: rest =>
    let (ok, rb') := ring_buffer_write rb b
    let (oks, rbf) := ring_buffer_writeList rb' rest
    (ok :: oks, rbf)

end Rule02

/-!
## `src/c/nasa-rules/rule03_no_dynamic_memory.c` — EventQueue
-/

namespace Rule03

def MAX_EVENTS : Nat := 64

/-- `Event`: `uint8_t type; uint16_t data; uint32_t timestamp`.  The push
function stores its arguments verbatim, so the fields are plain `Nat`. -/
structure Event where
  type : Nat
  data : Nat
  timestamp : Nat
deriving DecidableEq

/-- `EventQueue`: `Event events[MAX_EVENTS]` with `size_t` head, tail,
count. -/
structure EventQueue where
  events : List Event
  head : Nat
  tail : Nat
  count : Nat
deriving DecidableEq

/-- `event_queue_init`: `memset` of the whole global queue. -/
def event_queue_init : EventQueue :=
  ⟨List.replicate MAX_EVENTS ⟨0, 0, 0⟩, 0, 0, 0⟩

/-- `event_queue_push`: reject when full, otherwise store at `head`, advance
`head`, increment `count`.  (Note: in this file `head` is the write index.) -/
def event_queue_push (q : EventQueue) (type data timestamp : Nat) :
    Bool × EventQueue :=
  if q.count ≥ MAX_EVENTS then (false, q)
  else
    (true, { q with
      events := q.events.set q.head ⟨type, data, timestamp⟩,
      head := (q.head + 1) % MAX_EVENTS,
      count := q.count + 1 })

/-- `event_queue_pop`: reject when empty, otherwise read at `tail`, advance
`tail`, decrement `count`.  (Note: in this file `tail` is the read index.) -/
def event_queue_pop (q : EventQueue) : Option Event × EventQueue :=
  if q.count = 0 then (none, q)
  else
    (some (q.events.getD q.tail ⟨0, 0, 0⟩),
     { q with
       tail := (q.tail + 1) % MAX_EVENTS,
       count := q.count - 1 })

/-- Pushing a whole list of events in order, collecting each call's result. -/
def event_queue_pushList (q : EventQueue) :
    List (Nat × Nat × Nat) → List Bool × EventQueue
  | [] => ([], q)
  | e :: rest =>
    let (ok, q') := event_queue_push q e.1 e.2.1 e.2.2
    let (oks, qf) := event_queue_pushList q' rest
    (ok :: oks, qf)

/-- An operation on the event queue: a push with its three arguments, or a
pop. -/
inductive EOp where
  | push (type data timestamp : Nat) : EOp
  | pop : EOp
deriving DecidableEq

/-- Run a list of operations; returns the events stored by the successful
pushes, the events returned by the successful pops (both in order), and the
final queue. -/
def event_queue_run (q : EventQueue) :
    List EOp → List Event × List Event × EventQueue
  | [] => ([], [], q)
  | EOp.push t d ts :: rest =>
    let (ok, q') := event_queue_push q t d ts
    let (ps, os, qf) := event_queue_run q' rest
    (if ok then ⟨t, d, ts⟩ :: ps else ps, os, qf)
  | EOp.pop :: rest =>
    let (res, q') := event_queue_pop q
    let (ps, os, qf) := event_queue_run q' rest
    (ps, (match res with | some e => e :: os | none => os), qf)

/-- `true` iff running the operations from `q` rejects no push. -/
def event_queue_noReject (q : EventQueue) : List EOp → Bool
  | [] => true
  | EOp.push t d ts :: rest =>
    let (ok, q') := event_queue_push q t d ts
    ok && event_queue_noReject q' rest
  | EOp.pop :: rest => event_queue_noReject (event_queue_pop q).2 rest

end Rule03

/-!
## `src/c/memory-safety/memory_safety.c` — MessageQueue
-/

namespace Msafe

def MAX_MESSAGES : Nat := 64
def MESSAGE_SIZE : Nat := 128

/-- `Message`: `char text[MESSAGE_SIZE]` (modelled by the string it holds),
`uint32_t timestamp`, `uint8_t priority`. -/
structure Message where
  text : List Nat
  timestamp : Nat
  priority : Nat
deriving DecidableEq

/-- `MessageQueue`: `Message messages[MAX_MESSAGES]` with `size_t` head,
tail, count. -/
structure MessageQueue where
  messages : List Message
  head : Nat
  tail : Nat
  count : Nat
deriving DecidableEq

/-- `msg_queue_init`: `memset` of the whole queue. -/
def msg_queue_init : MessageQueue :=
  ⟨List.replicate MAX_MESSAGES ⟨[], 0, 0⟩, 0, 0, 0⟩

/-- The `Message` that `msg_queue_push` builds in the slot: the text is
truncated by `strncpy(.., MESSAGE_SIZE - 1)`, the timestamp is
`(uint32_t)queue->count`. -/
def storedMessage (q : MessageQueue) (text : List Nat) (priority : Nat) :
    Message :=
  ⟨text.take (MESSAGE_SIZE - 1), q.count % 2 ^ 32, priority⟩

/-- `msg_queue_push`: reject when full, otherwise build the message at
`tail`, advance `tail`, increment `count`.  (In this file `tail` is the
write index.) -/
def msg_queue_push (q : MessageQueue) (text : List Nat) (priority : Nat) :
    Bool × MessageQueue :=
  if q.count ≥ MAX_MESSAGES then (false, q)
  else
    (true, { q with
      messages := q.messages.set q.tail (storedMessage q text priority),
      tail := (q.tail + 1) % MAX_MESSAGES,
      count := q.count + 1 })

/-- `msg_queue_pop`: reject when empty, otherwise copy out the message at
`head`, advance `head`, decrement `count`. -/
def msg_queue_pop (q : MessageQueue) : Option Message × MessageQueue :=
  if q.count = 0 then (none, q)
  else
    (some (q.messages.getD q.head ⟨[], 0, 0⟩),
     { q with
       head := (q.head + 1) % MAX_MESSAGES,
       count := q.count - 1 })

/-- An operation on the message queue. -/
inductive MOp where
  | push (text : List Nat) (priority : Nat) : MOp
  | pop : MOp
deriving DecidableEq

/-- Run a list of operations; returns the messages stored by the successful
pushes, the messages returned by the successful pops, and the final queue. -/
def msg_queue_run (q : MessageQueue) :
    List MOp → List Message × List Message × MessageQueue
  | [] => ([], [], q)
  | MOp.push t pr :: rest =>
    let (ok, q') := msg_queue_push q t pr
    let (ps, os, qf) := msg_queue_run q' rest
    (if ok then storedMessage q t pr :: ps else ps, os, qf)
  | MOp.pop :: rest =>
    let (res, q') := msg_queue_pop q
    let (ps, os, qf) := msg_queue_run q' rest
    (ps, (match res with | some m => m :: os | none => os), qf)

/-- `true` iff running the operations from `q` rejects no push. -/
def msg_queue_noReject (q : MessageQueue) : List MOp → Bool
  | [] => true
  | MOp.push t pr :: rest =>
    let (ok, q') := msg_queue_push q t pr
    ok && msg_queue_noReject q' rest
  | MOp.pop :: rest => msg_queue_noReject (msg_queue_pop q).2 rest

end Msafe

/-!
## FIFO refinement for the rule03 event queue
-/

namespace Rule03

/-- The queue's pending events, oldest first: the `count` cells starting at
the read index `tail`. -/
def eqContents (q : EventQueue) : List Event :=
  CArr.contents MAX_EVENTS q.events q.tail q.count ⟨0, 0, 0⟩

/-- Well-formedness of a reachable queue: full backing array, read index in
range, write index one past the stored items. -/
def eqWF (q : EventQueue) : Prop :=
  q.events.length = MAX_EVENTS ∧ q.tail < MAX_EVENTS ∧
    q.head = (q.tail + q.count) % MAX_EVENTS

theorem eqWF_init : eqWF event_queue_init := by
  refine ⟨by simp [event_queue_init], by simp [event_queue_init, MAX_EVENTS], ?_⟩
  simp [event_queue_init, MAX_EVENTS]

theorem eq_push_spec (q : EventQueue) (t d ts : Nat) (hwf : eqWF q)
    (hc : q.count < MAX_EVENTS) :
    (event_queue_push q t d ts).1 = true ∧
    eqWF (event_queue_push q t d ts).2 ∧
    (event_queue_push q t d ts).2.count = q.count + 1 ∧
    eqContents (event_queue_push q t d ts).2 = eqContents q ++ [⟨t, d, ts⟩] := by
  obtain ⟨hlen, htail, hhead⟩ := hwf
  have hng : ¬ q.count ≥ MAX_EVENTS := not_le.mpr hc
  refine ⟨by simp [event_queue_push, hng], ⟨?_, ?_, ?_⟩, ?_, ?_⟩
  · simp [event_queue_push, hng, hlen]
  · simp [event_queue_push, hng, htail]
  · simp only [event_queue_push, if_neg hng]
    show (q.head + 1) % MAX_EVENTS = (q.tail + (q.count + 1)) % MAX_EVENTS
    rw [hhead, Nat.mod_add_mod, Nat.add_assoc]
  · simp [event_queue_push, hng]
  · simp only [event_queue_push, if_neg hng]
    show CArr.contents MAX_EVENTS (q.events.set q.head ⟨t, d, ts⟩) q.tail
        (q.count + 1) ⟨0, 0, 0⟩ = eqContents q ++ [⟨t, d, ts⟩]
    rw [hhead]
    exact CArr.contents_write _ _ _ _ _ _ hlen hc

theorem eq_pop_spec (q : EventQueue) (hwf : eqWF q) (hc : 0 < q.count) :
    (event_queue_pop q).1 = some (q.events.getD q.tail ⟨0, 0, 0⟩) ∧
    eqWF (event_queue_pop q).2 ∧
    eqContents q =
      q.events.getD q.tail ⟨0, 0, 0⟩ :: eqContents (event_queue_pop q).2 := by
  obtain ⟨hlen, htail, hhead⟩ := hwf
  have hnz : ¬ q.count = 0 := Nat.pos_iff_ne_zero.mp hc
  refine ⟨by simp [event_queue_pop, hnz], ⟨?_, ?_, ?_⟩, ?_⟩
  · simp [event_queue_pop, hnz, hlen]
  · simp only [event_queue_pop, if_neg hnz]
    exact Nat.mod_lt _ (by norm_num [MAX_EVENTS])
  · simp only [event_queue_pop, if_neg hnz]
    show q.head = ((q.tail + 1) % MAX_EVENTS + (q.count - 1)) % MAX_EVENTS
    rw [hhead, Nat.mod_add_mod]
    congr 1
    omega
  · simp only [event_queue_pop, if_neg hnz]
    show eqContents q =
      q.events.getD q.tail ⟨0, 0, 0⟩ ::
        CArr.contents MAX_EVENTS q.events ((q.tail + 1) % MAX_EVENTS)
          (q.count - 1) ⟨0, 0, 0⟩
    have hq : q.count = (q.count - 1) + 1 := by omega
    unfold eqContents
    rw [hq, CArr.contents_read _ _ _ _ _ htail]
    simp

/-- Main run invariant: items popped so far, followed by what is still
stored, equal the initial contents followed by the items pushed so far. -/
theorem eq_run_spec (ops : List EOp) : ∀ q : EventQueue, eqWF q →
    event_queue_noReject q ops = true →
    (event_queue_run q ops).2.1 ++ eqContents (event_queue_run q ops).2.2 =
      eqContents q ++ (event_queue_run q ops).1 ∧
    eqWF (event_queue_run q ops).2.2 := by
  induction ops with
  | nil => intro q hwf _; exact ⟨by simp [event_queue_run], hwf⟩
  | cons op rest ih =>
    intro q hwf hnr
    cases op with
    | push t d ts =>
      rcases hp : event_queue_push q t d ts with ⟨ok, q'⟩
      by_cases hc : q.count ≥ MAX_EVENTS
      · exfalso
        simp only [event_queue_noReject, event_queue_push, if_pos hc] at hnr
        simp at hnr
      · have hspec := eq_push_spec q t d ts hwf (not_le.mp hc)
        rw [hp] at hspec
        obtain ⟨hok, hwf', _, hcont⟩ := hspec
        subst hok
        rcases hr : event_queue_run q' rest with ⟨ps, os, qf⟩
        simp only [event_queue_noReject, hp, Bool.true_and] at hnr
        have IH := ih q' hwf' hnr
        rw [hr] at IH
        simp only [event_queue_run, hp, hr, if_true]
        refine ⟨?_, IH.2⟩
        show os ++ eqContents qf = eqContents q ++ (Event.mk t d ts :: ps)
        rw [IH.1, hcont, List.append_assoc, List.singleton_append]
    | pop =>
      rcases hpo : event_queue_pop q with ⟨res, q'⟩
      by_cases hz : q.count = 0
      · rw [event_queue_pop, if_pos hz] at hpo
        cases hpo
        simp only [event_queue_noReject, event_queue_pop, if_pos hz] at hnr
        rcases hr : event_queue_run q rest with ⟨ps, os, qf⟩
        have IH := ih q hwf hnr
        rw [hr] at IH
        simp only [event_queue_run, event_queue_pop, if_pos hz, hr]
        exact IH
      · have hspec := eq_pop_spec q hwf (Nat.pos_of_ne_zero hz)
        rw [hpo] at hspec
        obtain ⟨hres, hwf', hcont⟩ := hspec
        subst hres
        rcases hr : event_queue_run q' rest with ⟨ps, os, qf⟩
        simp only [event_queue_noReject, hpo] at hnr
        have IH := ih q' hwf' hnr
        rw [hr] at IH
        simp only [event_queue_run, hpo, hr]
        refine ⟨?_, IH.2⟩
        show (q.events.getD q.tail ⟨0, 0, 0⟩ :: os) ++ eqContents qf =
          eqContents q ++ ps
        rw [List.cons_append, IH.1, hcont, List.cons_append]

end Rule03

/-!
## FIFO refinement for the memory_safety message queue
-/

namespace Msafe

/-- Pending messages, oldest first: the `count` cells starting at the read
index `head` (in this file `head` is the read index, `tail` the write
index). -/
def mqContents (q : MessageQueue) : List Message :=
  CArr.contents MAX_MESSAGES q.messages q.head q.count ⟨[], 0, 0⟩

/-- Well-formedness of a reachable message queue. -/
def mqWF (q : MessageQueue) : Prop :=
  q.messages.length = MAX_MESSAGES ∧ q.head < MAX_MESSAGES ∧
    q.tail = (q.head + q.count) % MAX_MESSAGES

theorem mqWF_init : mqWF msg_queue_init := by
  refine ⟨by simp [msg_queue_init], by simp [msg_queue_init, MAX_MESSAGES], ?_⟩
  simp [msg_queue_init, MAX_MESSAGES]

theorem mq_push_spec (q : MessageQueue) (t : List Nat) (pr : Nat)
    (hwf : mqWF q) (hc : q.count < MAX_MESSAGES) :
    (msg_queue_push q t pr).1 = true ∧
    mqWF (msg_queue_push q t pr).2 ∧
    (msg_queue_push q t pr).2.count = q.count + 1 ∧
    mqContents (msg_queue_push q t pr).2 =
      mqContents q ++ [storedMessage q t pr] := by
  obtain ⟨hlen, hhead, htail⟩ := hwf
  have hng : ¬ q.count ≥ MAX_MESSAGES := not_le.mpr hc
  refine ⟨by simp [msg_queue_push, hng], ⟨?_, ?_, ?_⟩, ?_, ?_⟩
  · simp [msg_queue_push, hng, hlen]
  · simp [msg_queue_push, hng, hhead]
  · simp only [msg_queue_push, if_neg hng]
    show (q.tail + 1) % MAX_MESSAGES = (q.head + (q.count + 1)) % MAX_MESSAGES
    rw [htail, Nat.mod_add_mod, Nat.add_assoc]
  · simp [msg_queue_push, hng]
  · simp only [msg_queue_push, if_neg hng]
    show CArr.contents MAX_MESSAGES (q.messages.set q.tail (storedMessage q t pr))
        q.head (q.count + 1) ⟨[], 0, 0⟩ = mqContents q ++ [storedMessage q t pr]
    rw [htail]
    exact CArr.contents_write _ _ _ _ _ _ hlen hc

theorem mq_pop_spec (q : MessageQueue) (hwf : mqWF q) (hc : 0 < q.count) :
    (msg_queue_pop q).1 = some (q.messages.getD q.head ⟨[], 0, 0⟩) ∧
    mqWF (msg_queue_pop q).2 ∧
    mqContents q =
      q.messages.getD q.head ⟨[], 0, 0⟩ :: mqContents (msg_queue_pop q).2 := by
  obtain ⟨hlen, hhead, htail⟩ := hwf
  have hnz : ¬ q.count = 0 := Nat.pos_iff_ne_zero.mp hc
  refine ⟨by simp [msg_queue_pop, hnz], ⟨?_, ?_, ?_⟩, ?_⟩
  · simp [msg_queue_pop, hnz, hlen]
  · simp only [msg_queue_pop, if_neg hnz]
    exact Nat.mod_lt _ (by norm_num [MAX_MESSAGES])
  · simp only [msg_queue_pop, if_neg hnz]
    show q.tail = ((q.head + 1) % MAX_MESSAGES + (q.count - 1)) % MAX_MESSAGES
    rw [htail, Nat.mod_add_mod]
    congr 1
    omega
  · simp only [msg_queue_pop, if_neg hnz]
    show mqContents q =
      q.messages.getD q.head ⟨[], 0, 0⟩ ::
        CArr.contents MAX_MESSAGES q.messages ((q.head + 1) % MAX_MESSAGES)
          (q.count - 1) ⟨[], 0, 0⟩
    have hq : q.count = (q.count - 1) + 1 := by omega
    unfold mqContents
    rw [hq, CArr.contents_read _ _ _ _ _ hhead]
    simp

/-- Main run invariant for the message queue. -/
theorem mq_run_spec (ops : List MOp) : ∀ q : MessageQueue, mqWF q →
    msg_queue_noReject q ops = true →
    (msg_queue_run q ops).2.1 ++ mqContents (msg_queue_run q ops).2.2 =
      mqContents q ++ (msg_queue_run q ops).1 ∧
    mqWF (msg_queue_run q ops).2.2 := by
  induction ops with
  | nil => intro q hwf _; exact ⟨by simp [msg_queue_run], hwf⟩
  | cons op rest ih =>
    intro q hwf hnr
    cases op with
    | push t pr =>
      rcases hp : msg_queue_push q t pr with ⟨ok, q'⟩
      by_cases hc : q.count ≥ MAX_MESSAGES
      · exfalso
        simp only [msg_queue_noReject, msg_queue_push, if_pos hc] at hnr
        simp at hnr
      · have hspec := mq_push_spec q t pr hwf (not_le.mp hc)
        rw [hp] at hspec
        obtain ⟨hok, hwf', _, hcont⟩ := hspec
        subst hok
        rcases hr : msg_queue_run q' rest with ⟨ps, os, qf⟩
        simp only [msg_queue_noReject, hp, Bool.true_and] at hnr
        have IH := ih q' hwf' hnr
        rw [hr] at IH
        simp only [msg_queue_run, hp, hr, if_true]
        refine ⟨?_, IH.2⟩
        show os ++ mqContents qf = mqContents q ++ (storedMessage q t pr :: ps)
        rw [IH.1, hcont, List.append_assoc, List.singleton_append]
    | pop =>
      rcases hpo : msg_queue_pop q with ⟨res, q'⟩
      by_cases hz : q.count = 0
      · rw [msg_queue_pop, if_pos hz] at hpo
        cases hpo
        simp only [msg_queue_noReject, msg_queue_pop, if_pos hz] at hnr
        rcases hr : msg_queue_run q rest with ⟨ps, os, qf⟩
        have IH := ih q hwf hnr
        rw [hr] at IH
        simp only [msg_queue_run, msg_queue_pop, if_pos hz, hr]
        exact IH
      · have hspec := mq_pop_spec q hwf (Nat.pos_of_ne_zero hz)
        rw [hpo] at hspec
        obtain ⟨hres, hwf', hcont⟩ := hspec
        subst hres
        rcases hr : msg_queue_run q' rest with ⟨ps, os, qf⟩
        simp only [msg_queue_noReject, hpo] at hnr
        have IH := ih q' hwf' hnr
        rw [hr] at IH
        simp only [msg_queue_run, hpo, hr]
        refine ⟨?_, IH.2⟩
        show (q.messages.getD q.head ⟨[], 0, 0⟩ :: os) ++ mqContents qf =
          mqContents q ++ ps
        rw [List.cons_append, IH.1, hcont, List.cons_append]

end Msafe

namespace Rule03

/-- As long as capacity is not exceeded, every push of a batch succeeds and
the count grows by the batch length. -/
theorem eq_pushList_spec (xs : List (Nat × Nat × Nat)) : ∀ q : EventQueue,
    q.count + xs.length ≤ MAX_EVENTS →
    (event_queue_pushList q xs).1 = List.replicate xs.length true ∧
    (event_queue_pushList q xs).2.count = q.count + xs.length := by
  induction xs with
  | nil => intro q _; simp [event_queue_pushList]
  | cons x rest ih =>
    intro q h
    simp only [List.length_cons] at h
    have hng : ¬ q.count ≥ MAX_EVENTS := by omega
    simp only [event_queue_pushList, event_queue_push, if_neg hng]
    have IH := ih { q with
      events := q.events.set q.head ⟨x.1, x.2.1, x.2.2⟩,
      head := (q.head + 1) % MAX_EVENTS,
      count := q.count + 1 } (by simpa using by omega)
    rcases hr : event_queue_pushList { q with
      events := q.events.set q.head ⟨x.1, x.2.1, x.2.2⟩,
      head := (q.head + 1) % MAX_EVENTS,
      count := q.count + 1 } rest with ⟨oks, qf⟩
    rw [hr] at IH
    have h1 : oks = List.replicate rest.length true := IH.1
    have h2 : qf.count = q.count + 1 + rest.length := IH.2
    simp only [List.length_cons, List.replicate_succ]
    exact ⟨by rw [h1], by rw [h2]; omega⟩

end Rule03

namespace Rule02

/-- As long as capacity is not exceeded, every write of a batch succeeds and
the count grows by the batch length. -/
theorem rb_writeList_spec (xs : List Nat) : ∀ rb : RingBuffer,
    rb.count + xs.length ≤ MAX_BUFFER_SIZE →
    (ring_buffer_writeList rb xs).1 = List.replicate xs.length true ∧
    (ring_buffer_writeList rb xs).2.count = rb.count + xs.length := by
  induction xs with
  | nil => intro rb _; simp [ring_buffer_writeList]
  | cons x rest ih =>
    intro rb h
    simp only [List.length_cons] at h
    have hng : ¬ rb.count ≥ MAX_BUFFER_SIZE := by omega
    simp only [ring_buffer_writeList, ring_buffer_write, if_neg hng]
    have IH := ih { rb with
      data := rb.data.set rb.head x,
      head := (rb.head + 1) % MAX_BUFFER_SIZE,
      count := rb.count + 1 } (by simpa using by omega)
    rcases hr : ring_buffer_writeList { rb with
      data := rb.data.set rb.head x,
      head := (rb.head + 1) % MAX_BUFFER_SIZE,
      count := rb.count + 1 } rest with ⟨oks, rbf⟩
    rw [hr] at IH
    have h1 : oks = List.replicate rest.length true := IH.1
    have h2 : rbf.count = rb.count + 1 + rest.length := IH.2
    simp only [List.length_cons, List.replicate_succ]
    exact ⟨by rw [h1], by rw [h2]; omega⟩

end Rule02

/-!
## Claim theorems: FIFO and capacity behaviour of the queues
-/

/-- C1: starting from the initialized empty queue, for every operation
sequence in which no push is rejected, the successful pops return exactly a
prefix of the items stored by the successful pushes, in the same order — the
Nth successful pop returns the item stored by the Nth successful push.
Stated for `msg_queue_push`/`msg_queue_pop` (memory_safety.c) and
`event_queue_push`/`event_queue_pop` (rule03). -/
theorem C1_queue_fifo_order :
    (∀ ops : List Rule03.EOp,
      Rule03.event_queue_noReject Rule03.event_queue_init ops = true →
      ∃ l, (Rule03.event_queue_run Rule03.event_queue_init ops).2.1 ++ l =
        (Rule03.event_queue_run Rule03.event_queue_init ops).1) ∧
    (∀ ops : List Msafe.MOp,
      Msafe.msg_queue_noReject Msafe.msg_queue_init ops = true →
      ∃ l, (Msafe.msg_queue_run Msafe.msg_queue_init ops).2.1 ++ l =
        (Msafe.msg_queue_run Msafe.msg_queue_init ops).1) := by
  constructor
  · intro ops hnr
    have h := Rule03.eq_run_spec ops Rule03.event_queue_init Rule03.eqWF_init hnr
    refine ⟨Rule03.eqContents (Rule03.event_queue_run Rule03.event_queue_init ops).2.2, ?_⟩
    have hinit : Rule03.eqContents Rule03.event_queue_init = [] := by
      simp [Rule03.eqContents, Rule03.event_queue_init]
    rw [h.1, hinit, List.nil_append]
  · intro ops hnr
    have h := Msafe.mq_run_spec ops Msafe.msg_queue_init Msafe.mqWF_init hnr
    refine ⟨Msafe.mqContents (Msafe.msg_queue_run Msafe.msg_queue_init ops).2.2, ?_⟩
    have hinit : Msafe.mqContents Msafe.msg_queue_init = [] := by
      simp [Msafe.mqContents, Msafe.msg_queue_init]
    rw [h.1, hinit, List.nil_append]

/-- Witness for C1: three pushes of distinct items followed by three pops;
the pops yield exactly the pushed items, in order. -/
theorem C1_queue_fifo_order_witness :
    (Rule03.event_queue_noReject Rule03.event_queue_init
      [Rule03.EOp.push 1 100 1000, Rule03.EOp.push 2 200 2000,
       Rule03.EOp.push 3 300 3000, Rule03.EOp.pop, Rule03.EOp.pop,
       Rule03.EOp.pop] = true) ∧
    (∃ l, (Rule03.event_queue_run Rule03.event_queue_init
      [Rule03.EOp.push 1 100 1000, Rule03.EOp.push 2 200 2000,
       Rule03.EOp.push 3 300 3000, Rule03.EOp.pop, Rule03.EOp.pop,
       Rule03.EOp.pop]).2.1 ++ l =
      (Rule03.event_queue_run Rule03.event_queue_init
      [Rule03.EOp.push 1 100 1000, Rule03.EOp.push 2 200 2000,
       Rule03.EOp.push 3 300 3000, Rule03.EOp.pop, Rule03.EOp.pop,
       Rule03.EOp.pop]).1) ∧
    (Msafe.msg_queue_noReject Msafe.msg_queue_init
      [Msafe.MOp.push [65] 1, Msafe.MOp.push [66] 2, Msafe.MOp.push [67] 3,
       Msafe.MOp.pop, Msafe.MOp.pop, Msafe.MOp.pop] = true) ∧
    (∃ l, (Msafe.msg_queue_run Msafe.msg_queue_init
      [Msafe.MOp.push [65] 1, Msafe.MOp.push [66] 2, Msafe.MOp.push [67] 3,
       Msafe.MOp.pop, Msafe.MOp.pop, Msafe.MOp.pop]).2.1 ++ l =
      (Msafe.msg_queue_run Msafe.msg_queue_init
      [Msafe.MOp.push [65] 1, Msafe.MOp.push [66] 2, Msafe.MOp.push [67] 3,
       Msafe.MOp.pop, Msafe.MOp.pop, Msafe.MOp.pop]).1) :=
  ⟨by decide, C1_queue_fifo_order.1 _ (by decide), by decide,
   C1_queue_fifo_order.2 _ (by decide)⟩

/-- C2: push returns false exactly when `count` has reached the capacity (for
states satisfying the documented invariant `count <= capacity`), and a
rejected push leaves the buffer unchanged; pop returns false exactly when
`count == 0` and leaves the buffer unchanged; from the initialized empty
buffer, `capacity` pushes all succeed and the next one fails.  Stated for
`event_queue_push`/`event_queue_pop` (rule03) and
`ring_buffer_write`/`ring_buffer_read` (rule02). -/
theorem C2_ring_capacity_rejection :
    (∀ (q : Rule03.EventQueue) (t d ts : Nat), q.count ≤ Rule03.MAX_EVENTS →
      ((Rule03.event_queue_push q t d ts).1 = false ↔
        q.count = Rule03.MAX_EVENTS)) ∧
    (∀ (q : Rule03.EventQueue) (t d ts : Nat),
      (Rule03.event_queue_push q t d ts).1 = false →
      (Rule03.event_queue_push q t d ts).2 = q) ∧
    (∀ q : Rule03.EventQueue,
      ((Rule03.event_queue_pop q).1 = none ↔ q.count = 0)) ∧
    (∀ q : Rule03.EventQueue,
      (Rule03.event_queue_pop q).1 = none → (Rule03.event_queue_pop q).2 = q) ∧
    (∀ xs : List (Nat × Nat × Nat), xs.length = Rule03.MAX_EVENTS →
      (Rule03.event_queue_pushList Rule03.event_queue_init xs).1 =
        List.replicate Rule03.MAX_EVENTS true ∧
      ∀ t d ts, (Rule03.event_queue_push
        (Rule03.event_queue_pushList Rule03.event_queue_init xs).2 t d ts).1 =
        false) ∧
    (∀ (rb : Rule02.RingBuffer) (b : Nat), rb.count ≤ Rule02.MAX_BUFFER_SIZE →
      ((Rule02.ring_buffer_write rb b).1 = false ↔
        rb.count = Rule02.MAX_BUFFER_SIZE)) ∧
    (∀ (rb : Rule02.RingBuffer) (b : Nat),
      (Rule02.ring_buffer_write rb b).1 = false →
      (Rule02.ring_buffer_write rb b).2 = rb) ∧
    (∀ rb : Rule02.RingBuffer,
      ((Rule02.ring_buffer_read rb).1 = none ↔ rb.count = 0)) ∧
    (∀ rb : Rule02.RingBuffer,
      (Rule02.ring_buffer_read rb).1 = none →
      (Rule02.ring_buffer_read rb).2 = rb) ∧
    (∀ (rb0 : Rule02.RingBuffer) (xs : List Nat),
      xs.length = Rule02.MAX_BUFFER_SIZE →
      (Rule02.ring_buffer_writeList (Rule02.ring_buffer_init rb0) xs).1 =
        List.replicate Rule02.MAX_BUFFER_SIZE true ∧
      ∀ b, (Rule02.ring_buffer_write
        (Rule02.ring_buffer_writeList (Rule02.ring_buffer_init rb0) xs).2 b).1 =
        false) := by
  refine ⟨?_, ?_, ?_, ?_, ?_, ?_, ?_, ?_, ?_, ?_⟩
  · intro q t d ts h
    constructor
    · intro hf
      by_contra hne
      have hc : ¬ q.count ≥ Rule03.MAX_EVENTS := by omega
      simp [Rule03.event_queue_push, hc] at hf
    · intro he
      have hc : q.count ≥ Rule03.MAX_EVENTS := by omega
      simp [Rule03.event_queue_push, hc]
  · intro q t d ts hf
    by_cases hc : q.count ≥ Rule03.MAX_EVENTS
    · simp [Rule03.event_queue_push, hc]
    · simp [Rule03.event_queue_push, hc] at hf
  · intro q
    by_cases hz : q.count = 0 <;> simp [Rule03.event_queue_pop, hz]
  · intro q h
    by_cases hz : q.count = 0
    · simp [Rule03.event_queue_pop, hz]
    · simp [Rule03.event_queue_pop, hz] at h
  · intro xs hlen
    have h0 : Rule03.event_queue_init.count + xs.length ≤ Rule03.MAX_EVENTS := by
      simp [Rule03.event_queue_init, hlen]
    have hall := Rule03.eq_pushList_spec xs Rule03.event_queue_init h0
    refine ⟨by rw [hall.1, hlen], ?_⟩
    intro t d ts
    have hcnt : (Rule03.event_queue_pushList Rule03.event_queue_init xs).2.count =
        Rule03.MAX_EVENTS := by
      rw [hall.2, hlen]; simp [Rule03.event_queue_init]
    simp [Rule03.event_queue_push, hcnt]
  · intro rb b h
    constructor
    · intro hf
      by_contra hne
      have hc : ¬ rb.count ≥ Rule02.MAX_BUFFER_SIZE := by omega
      simp [Rule02.ring_buffer_write, hc] at hf
    · intro he
      have hc : rb.count ≥ Rule02.MAX_BUFFER_SIZE := by omega
      simp [Rule02.ring_buffer_write, hc]
  · intro rb b hf
    by_cases hc : rb.count ≥ Rule02.MAX_BUFFER_SIZE
    · simp [Rule02.ring_buffer_write, hc]
    · simp [Rule02.ring_buffer_write, hc] at hf
  · intro rb
    by_cases hz : rb.count = 0 <;> simp [Rule02.ring_buffer_read, hz]
  · intro rb h
    by_cases hz : rb.count = 0
    · simp [Rule02.ring_buffer_read, hz]
    · simp [Rule02.ring_buffer_read, hz] at h
  · intro rb0 xs hlen
    have h0 : (Rule02.ring_buffer_init rb0).count + xs.length ≤
        Rule02.MAX_BUFFER_SIZE := by
      simp [Rule02.ring_buffer_init, hlen]
    have hall := Rule02.rb_writeList_spec xs (Rule02.ring_buffer_init rb0) h0
    refine ⟨by rw [hall.1, hlen], ?_⟩
    intro b
    have hcnt : (Rule02.ring_buffer_writeList (Rule02.ring_buffer_init rb0) xs).2.count =
        Rule02.MAX_BUFFER_SIZE := by
      rw [hall.2, hlen]; simp [Rule02.ring_buffer_init]
    simp [Rule02.ring_buffer_write, hcnt]

/-- A concrete full event queue (64 identical events stored). -/
def eqFull : Rule03.EventQueue :=
  ⟨List.replicate Rule03.MAX_EVENTS ⟨0, 0, 0⟩, 0, 0, Rule03.MAX_EVENTS⟩

/-- A concrete full rule02 ring buffer. -/
def rbFull : Rule02.RingBuffer :=
  ⟨List.replicate Rule02.MAX_BUFFER_SIZE 0, 0, 0, Rule02.MAX_BUFFER_SIZE⟩

/-- A concrete ring buffer with stale index fields, to be re-initialized. -/
def rbStale : Rule02.RingBuffer :=
  ⟨List.replicate Rule02.MAX_BUFFER_SIZE 7, 3, 9, 12⟩

/-- Witness for C2 at concrete states: a full queue rejects a push and is
left unchanged, an empty queue rejects a pop and is left unchanged, and a
batch of `capacity` pushes from the initialized queue all succeed with the
next push failing. -/
theorem C2_ring_capacity_rejection_witness :
    ((Rule03.event_queue_push eqFull 1 2 3).1 = false) ∧
    ((Rule03.event_queue_push eqFull 1 2 3).2 = eqFull) ∧
    ((Rule03.event_queue_pop Rule03.event_queue_init).1 = none) ∧
    ((Rule03.event_queue_pop Rule03.event_queue_init).2 =
      Rule03.event_queue_init) ∧
    ((Rule03.event_queue_pushList Rule03.event_queue_init
        (List.replicate Rule03.MAX_EVENTS (1, 2, 3))).1 =
      List.replicate Rule03.MAX_EVENTS true) ∧
    ((Rule03.event_queue_push (Rule03.event_queue_pushList
        Rule03.event_queue_init
        (List.replicate Rule03.MAX_EVENTS (1, 2, 3))).2 4 5 6).1 = false) ∧
    ((Rule02.ring_buffer_write rbFull 9).1 = false) ∧
    ((Rule02.ring_buffer_write rbFull 9).2 = rbFull) ∧
    ((Rule02.ring_buffer_read (Rule02.ring_buffer_init rbStale)).1 = none) ∧
    ((Rule02.ring_buffer_read (Rule02.ring_buffer_init rbStale)).2 =
      Rule02.ring_buffer_init rbStale) ∧
    ((Rule02.ring_buffer_writeList (Rule02.ring_buffer_init rbStale)
        (List.replicate Rule02.MAX_BUFFER_SIZE 8)).1 =
      List.replicate Rule02.MAX_BUFFER_SIZE true) ∧
    ((Rule02.ring_buffer_write (Rule02.ring_buffer_writeList
        (Rule02.ring_buffer_init rbStale)
        (List.replicate Rule02.MAX_BUFFER_SIZE 8)).2 9).1 = false) :=
  ⟨(C2_ring_capacity_rejection.1 eqFull 1 2 3 (by decide)).mpr (by decide),
   C2_ring_capacity_rejection.2.1 eqFull 1 2 3 (by decide),
   (C2_ring_capacity_rejection.2.2.1 Rule03.event_queue_init).mpr (by decide),
   C2_ring_capacity_rejection.2.2.2.1 Rule03.event_queue_init (by decide),
   (C2_ring_capacity_rejection.2.2.2.2.1 _ (by decide)).1,
   (C2_ring_capacity_rejection.2.2.2.2.1 _ (by decide)).2 4 5 6,
   (C2_ring_capacity_rejection.2.2.2.2.2.1 rbFull 9 (by decide)).mpr (by decide),
   C2_ring_capacity_rejection.2.2.2.2.2.2.1 rbFull 9 (by decide),
   (C2_ring_capacity_rejection.2.2.2.2.2.2.2.1 _).mpr (by decide),
   C2_ring_capacity_rejection.2.2.2.2.2.2.2.2.1 _ (by decide),
   (C2_ring_capacity_rejection.2.2.2.2.2.2.2.2.2 rbStale _ (by decide)).1,
   (C2_ring_capacity_rejection.2.2.2.2.2.2.2.2.2 rbStale _ (by decide)).2 9⟩

/-- C8 (amended): in both rule03 and rule02 the `head` field is the WRITE
index and `tail` the READ index: every successful push stores the item at
index `head` and then advances `head = (head+1) mod capacity` and increments
`count`; every successful pop reads the item at index `tail` and then
advances `tail = (tail+1) mod capacity` and decrements `count`. -/
theorem C8_ring_index_roles :
    (∀ (q : Rule03.EventQueue) (t d ts : Nat), q.count < Rule03.MAX_EVENTS →
      Rule03.event_queue_push q t d ts =
        (true, { q with
          events := q.events.set q.head ⟨t, d, ts⟩,
          head := (q.head + 1) % Rule03.MAX_EVENTS,
          count := q.count + 1 })) ∧
    (∀ q : Rule03.EventQueue, 0 < q.count →
      Rule03.event_queue_pop q =
        (some (q.events.getD q.tail ⟨0, 0, 0⟩),
         { q with
           tail := (q.tail + 1) % Rule03.MAX_EVENTS,
           count := q.count - 1 })) ∧
    (∀ (rb : Rule02.RingBuffer) (b : Nat), rb.count < Rule02.MAX_BUFFER_SIZE →
      Rule02.ring_buffer_write rb b =
        (true, { rb with
          data := rb.data.set rb.head b,
          head := (rb.head + 1) % Rule02.MAX_BUFFER_SIZE,
          count := rb.count + 1 })) ∧
    (∀ rb : Rule02.RingBuffer, 0 < rb.count →
      Rule02.ring_buffer_read rb =
        (some (rb.data.getD rb.tail 0),
         { rb with
           tail := (rb.tail + 1) % Rule02.MAX_BUFFER_SIZE,
           count := rb.count - 1 })) := by
  refine ⟨?_, ?_, ?_, ?_⟩
  · intro q t d ts hc
    rw [Rule03.event_queue_push, if_neg (by omega)]
  · intro q hc
    rw [Rule03.event_queue_pop, if_neg (by omega)]
  · intro rb b hc
    rw [Rule02.ring_buffer_write, if_neg (by omega)]
  · intro rb hc
    rw [Rule02.ring_buffer_read, if_neg (by omega)]

/-- Witness for C8 at concrete states. -/
theorem C8_ring_index_roles_witness :
    (Rule03.event_queue_push Rule03.event_queue_init 1 100 1000 =
      (true, { Rule03.event_queue_init with
        events := Rule03.event_queue_init.events.set
          Rule03.event_queue_init.head ⟨1, 100, 1000⟩,
        head := (Rule03.event_queue_init.head + 1) % Rule03.MAX_EVENTS,
        count := Rule03.event_queue_init.count + 1 })) ∧
    (Rule03.event_queue_pop
      (Rule03.event_queue_push Rule03.event_queue_init 1 100 1000).2 =
      (some ((Rule03.event_queue_push Rule03.event_queue_init 1 100 1000).2.events.getD
        (Rule03.event_queue_push Rule03.event_queue_init 1 100 1000).2.tail ⟨0, 0, 0⟩),
       { (Rule03.event_queue_push Rule03.event_queue_init 1 100 1000).2 with
         tail := ((Rule03.event_queue_push Rule03.event_queue_init 1 100 1000).2.tail + 1) %
           Rule03.MAX_EVENTS,
         count := (Rule03.event_queue_push Rule03.event_queue_init 1 100 1000).2.count - 1 })) ∧
    (Rule02.ring_buffer_write (Rule02.ring_buffer_init rbStale) 42 =
      (true, { Rule02.ring_buffer_init rbStale with
        data := (Rule02.ring_buffer_init rbStale).data.set
          (Rule02.ring_buffer_init rbStale).head 42,
        head := ((Rule02.ring_buffer_init rbStale).head + 1) % Rule02.MAX_BUFFER_SIZE,
        count := (Rule02.ring_buffer_init rbStale).count + 1 })) ∧
    (Rule02.ring_buffer_read
      (Rule02.ring_buffer_write (Rule02.ring_buffer_init rbStale) 42).2 =
      (some ((Rule02.ring_buffer_write (Rule02.ring_buffer_init rbStale) 42).2.data.getD
        (Rule02.ring_buffer_write (Rule02.ring_buffer_init rbStale) 42).2.tail 0),
       { (Rule02.ring_buffer_write (Rule02.ring_buffer_init rbStale) 42).2 with
         tail := ((Rule02.ring_buffer_write (Rule02.ring_buffer_init rbStale) 42).2.tail + 1) %
           Rule02.MAX_BUFFER_SIZE,
         count := (Rule02.ring_buffer_write (Rule02.ring_buffer_init rbStale) 42).2.count - 1 })) :=
  ⟨C8_ring_index_roles.1 Rule03.event_queue_init 1 100 1000 (by decide),
   C8_ring_index_roles.2.1 _ (by decide),
   C8_ring_index_roles.2.2.1 (Rule02.ring_buffer_init rbStale) 42 (by decide),
   C8_ring_index_roles.2.2.2 _ (by decide)⟩

/-- Counterexample to C8 as stated: the claim says a successful push stores
at index `tail` and then advances `tail`; but after a successful push on the
initialized rule03 event queue, `tail` is still `0`, not `(0+1) mod 64` —
the code stores at `head` and advances `head` instead. -/
theorem C8_ring_index_roles_counterexample :
    (Rule03.event_queue_push Rule03.event_queue_init 1 100 1000).1 = true ∧
    (Rule03.event_queue_push Rule03.event_queue_init 1 100 1000).2.tail ≠
      (Rule03.event_queue_init.tail + 1) % Rule03.MAX_EVENTS ∧
    (Rule03.event_queue_push Rule03.event_queue_init 1 100 1000).2.head =
      (Rule03.event_queue_init.head + 1) % Rule03.MAX_EVENTS := by
  refine ⟨by decide, by decide, by decide⟩

/-!
## Object pools (rule03 `ObjectPool` and memory_safety `ObjectPool`)

A handle returned by `pool_acquire` (`PoolObject*` in C) is modelled as the
index of the slot; the argument of `pool_release` is an `Option Int`: `none`
is the NULL pointer, `some k` is the pointer `pool->objects + k` (the range
check `obj < pool->objects || obj >= pool->objects + N` becomes
`k < 0 ∨ N ≤ k`).  The `size_t` field `allocated_count` is incremented and
decremented modulo `2 ^ 64` exactly as the C `++`/`--` do.
-/

namespace Rule03

def MAX_OBJECTS : Nat := 32

/-- `PoolObject`: `int id; bool active; char data[64]`. -/
structure PoolObject where
  id : Int
  active : Bool
  data : List Nat
deriving DecidableEq

structure ObjectPool where
  objects : List PoolObject
  allocated_count : Nat
deriving DecidableEq

/-- `pool_init`: zero the pool, then set every `active` to false and each
`id` to its index. -/
def pool_init : ObjectPool :=
  ⟨(List.range MAX_OBJECTS).map (fun i => ⟨(i : Int), false, List.replicate 64 0⟩), 0⟩

/-- The scanning loop of `pool_acquire`, starting at slot `i`.  The loop
counter runs upward in C; `fuel` is the number of remaining iterations
(`MAX_OBJECTS - i`), making the recursion structural. -/
def pool_acquire_from (p : ObjectPool) (fuel i : Nat) : Option Nat × ObjectPool :=
  match fuel with
  | 0 => (none, p)
  | fuel + 1 =>
    if i < MAX_OBJECTS then
      let obj := p.objects.getD i ⟨0, false, []⟩
      if obj.active = false then
        (some i, { p with
          objects := p.objects.set i { obj with active := true },
          allocated_count := (p.allocated_count + 1) % 2 ^ 64 })
      else pool_acquire_from p fuel (i + 1)
    else (none, p)

/-- `pool_acquire`: first inactive slot in index order, or NULL. -/
def pool_acquire (p : ObjectPool) : Option Nat × ObjectPool :=
  pool_acquire_from p MAX_OBJECTS 0

/-- `pool_release`: NULL, out-of-pool and double-free guards, then clear the
payload, deactivate and decrement the count. -/
def pool_release (p : ObjectPool) (obj : Option Int) : ObjectPool :=
  match obj with
  | none => p
  | some k =>
    if k < 0 ∨ (MAX_OBJECTS : Int) ≤ k then p
    else
      let o := p.objects.getD k.toNat ⟨0, false, []⟩
      if o.active = false then p
      else { p with
        objects := p.objects.set k.toNat
          { o with data := List.replicate 64 0, active := false },
        allocated_count := (p.allocated_count + (2 ^ 64 - 1)) % 2 ^ 64 }

end Rule03

namespace Msafe

def POOL_SIZE : Nat := 32

/-- `PoolObject`: `int id; char data[64]; bool in_use`. -/
structure PoolObject where
  id : Int
  data : List Nat
  in_use : Bool
deriving DecidableEq

structure ObjectPool where
  objects : List PoolObject
  allocated_count : Nat
deriving DecidableEq

/-- `pool_init`: `memset` the whole pool, then set every `in_use` to
false. -/
def pool_init : ObjectPool :=
  ⟨List.replicate POOL_SIZE ⟨0, List.replicate 64 0, false⟩, 0⟩

/-- The scanning loop of `pool_acquire`, starting at slot `i`; a found slot
gets `in_use = true` and `id = i`.  `fuel` is the number of remaining
iterations (`POOL_SIZE - i`). -/
def pool_acquire_from (p : ObjectPool) (fuel i : Nat) : Option Nat × ObjectPool :=
  match fuel with
  | 0 => (none, p)
  | fuel + 1 =>
    if i < POOL_SIZE then
      let obj := p.objects.getD i ⟨0, [], false⟩
      if obj.in_use = false then
        (some i, { p with
          objects := p.objects.set i { obj with in_use := true, id := (i : Int) },
          allocated_count := (p.allocated_count + 1) % 2 ^ 64 })
      else pool_acquire_from p fuel (i + 1)
    else (none, p)

def pool_acquire (p : ObjectPool) : Option Nat × ObjectPool :=
  pool_acquire_from p POOL_SIZE 0

/-- `pool_release`: `assert(obj != NULL)` aborts the process on a NULL
handle — modelled as the error result `none`; otherwise the out-of-pool and
double-free guards are no-ops, and a successful release `memset`s the whole
object (id and payload zeroed), deactivates it and decrements the count. -/
def pool_release (p : ObjectPool) (obj : Option Int) : Option ObjectPool :=
  match obj with
  | none => none
  | some k =>
    if k < 0 ∨ (POOL_SIZE : Int) ≤ k then some p
    else
      let o := p.objects.getD k.toNat ⟨0, [], false⟩
      if o.in_use = false then some p
      else some { p with
        objects := p.objects.set k.toNat ⟨0, List.replicate 64 0, false⟩,
        allocated_count := (p.allocated_count + (2 ^ 64 - 1)) % 2 ^ 64 }

end Msafe

namespace Rule03

/-- The acquire scan, started anywhere at or below the first free slot with
enough fuel, finds that slot. -/
theorem pool_acquire_from_found (p : ObjectPool) (tgt : Nat)
    (htgt : tgt < MAX_OBJECTS)
    (hfree : (p.objects.getD tgt ⟨0, false, []⟩).active = false) :
    ∀ fuel i, i ≤ tgt → tgt < i + fuel →
    (∀ j, i ≤ j → j < tgt → (p.objects.getD j ⟨0, false, []⟩).active = true) →
    pool_acquire_from p fuel i =
      (some tgt, { p with
        objects := p.objects.set tgt
          { p.objects.getD tgt ⟨0, false, []⟩ with active := true },
        allocated_count := (p.allocated_count + 1) % 2 ^ 64 }) := by
  intro fuel
  induction fuel with
  | zero => intro i h1 h2 _; exact absurd h2 (by omega)
  | succ fuel ih =>
    intro i h1 h2 hskip
    by_cases heq : i = tgt
    · subst heq
      rw [pool_acquire_from, if_pos htgt]
      dsimp only
      rw [if_pos hfree]
    · have hi : i < tgt := by omega
      rw [pool_acquire_from, if_pos (by omega : i < MAX_OBJECTS)]
      have hact : (p.objects.getD i ⟨0, false, []⟩).active = true :=
        hskip i le_rfl hi
      dsimp only
      rw [if_neg (by simp [← List.getD_eq_getElem?_getD, hact])]
      exact ih (i + 1) (by omega) (by omega)
        (fun j hj1 hj2 => hskip j (by omega) hj2)

/-- The acquire scan finds nothing when every slot from `i` on is active. -/
theorem pool_acquire_from_none (p : ObjectPool) : ∀ fuel i,
    (∀ j, i ≤ j → j < MAX_OBJECTS →
      (p.objects.getD j ⟨0, false, []⟩).active = true) →
    pool_acquire_from p fuel i = (none, p) := by
  intro fuel
  induction fuel with
  | zero => intro i _; rw [pool_acquire_from]
  | succ fuel ih =>
    intro i hall
    by_cases hi : i < MAX_OBJECTS
    · rw [pool_acquire_from, if_pos hi]
      have hact : (p.objects.getD i ⟨0, false, []⟩).active = true :=
        hall i le_rfl hi
      dsimp only
      rw [if_neg (by simp [← List.getD_eq_getElem?_getD, hact])]
      exact ih (i + 1) (fun j hj1 hj2 => hall j (by omega) hj2)
    · rw [pool_acquire_from, if_neg hi]

end Rule03

namespace Msafe

/-- The acquire scan, started anywhere at or below the first free slot with
enough fuel, finds that slot (and stamps its `id`). -/
theorem mpool_acquire_from_found (p : ObjectPool) (tgt : Nat)
    (htgt : tgt < POOL_SIZE)
    (hfree : (p.objects.getD tgt ⟨0, [], false⟩).in_use = false) :
    ∀ fuel i, i ≤ tgt → tgt < i + fuel →
    (∀ j, i ≤ j → j < tgt → (p.objects.getD j ⟨0, [], false⟩).in_use = true) →
    pool_acquire_from p fuel i =
      (some tgt, { p with
        objects := p.objects.set tgt
          { p.objects.getD tgt ⟨0, [], false⟩ with
            in_use := true, id := (tgt : Int) },
        allocated_count := (p.allocated_count + 1) % 2 ^ 64 }) := by
  intro fuel
  induction fuel with
  | zero => intro i h1 h2 _; exact absurd h2 (by omega)
  | succ fuel ih =>
    intro i h1 h2 hskip
    by_cases heq : i = tgt
    · subst heq
      rw [pool_acquire_from, if_pos htgt]
      dsimp only
      rw [if_pos hfree]
    · have hi : i < tgt := by omega
      rw [pool_acquire_from, if_pos (by omega : i < POOL_SIZE)]
      have hact : (p.objects.getD i ⟨0, [], false⟩).in_use = true :=
        hskip i le_rfl hi
      dsimp only
      rw [if_neg (by simp [← List.getD_eq_getElem?_getD, hact])]
      exact ih (i + 1) (by omega) (by omega)
        (fun j hj1 hj2 => hskip j (by omega) hj2)

/-- The acquire scan finds nothing when every slot from `i` on is in use. -/
theorem mpool_acquire_from_none (p : ObjectPool) : ∀ fuel i,
    (∀ j, i ≤ j → j < POOL_SIZE →
      (p.objects.getD j ⟨0, [], false⟩).in_use = true) →
    pool_acquire_from p fuel i = (none, p) := by
  intro fuel
  induction fuel with
  | zero => intro i _; rw [pool_acquire_from]
  | succ fuel ih =>
    intro i hall
    by_cases hi : i < POOL_SIZE
    · rw [pool_acquire_from, if_pos hi]
      have hact : (p.objects.getD i ⟨0, [], false⟩).in_use = true :=
        hall i le_rfl hi
      dsimp only
      rw [if_neg (by simp [← List.getD_eq_getElem?_getD, hact])]
      exact ih (i + 1) (fun j hj1 hj2 => hall j (by omega) hj2)
    · rw [pool_acquire_from, if_neg hi]

end Msafe

/-!
## Claim theorems: pool acquire / release
-/

/-- C6: `pool_acquire` returns a handle to the lowest-index inactive slot,
marks exactly that slot active (the memory_safety variant also stamps its
`id`) and increments `allocated_count`, modifying no other slot; when every
slot is active it returns NULL and leaves the pool unchanged.  Stated for
the rule03 pool and the memory_safety pool. -/
theorem C6_pool_acquire_first_free :
    (∀ (p : Rule03.ObjectPool) (tgt : Nat), tgt < Rule03.MAX_OBJECTS →
      (∀ j, j < tgt → (p.objects.getD j ⟨0, false, []⟩).active = true) →
      (p.objects.getD tgt ⟨0, false, []⟩).active = false →
      Rule03.pool_acquire p =
        (some tgt, { p with
          objects := p.objects.set tgt
            { p.objects.getD tgt ⟨0, false, []⟩ with active := true },
          allocated_count := (p.allocated_count + 1) % 2 ^ 64 })) ∧
    (∀ p : Rule03.ObjectPool,
      (∀ j, j < Rule03.MAX_OBJECTS →
        (p.objects.getD j ⟨0, false, []⟩).active = true) →
      Rule03.pool_acquire p = (none, p)) ∧
    (∀ (p : Msafe.ObjectPool) (tgt : Nat), tgt < Msafe.POOL_SIZE →
      (∀ j, j < tgt → (p.objects.getD j ⟨0, [], false⟩).in_use = true) →
      (p.objects.getD tgt ⟨0, [], false⟩).in_use = false →
      Msafe.pool_acquire p =
        (some tgt, { p with
          objects := p.objects.set tgt
            { p.objects.getD tgt ⟨0, [], false⟩ with
              in_use := true, id := (tgt : Int) },
          allocated_count := (p.allocated_count + 1) % 2 ^ 64 })) ∧
    (∀ p : Msafe.ObjectPool,
      (∀ j, j < Msafe.POOL_SIZE →
        (p.objects.getD j ⟨0, [], false⟩).in_use = true) →
      Msafe.pool_acquire p = (none, p)) := by
  refine ⟨?_, ?_, ?_, ?_⟩
  · intro p tgt htgt hskip hfree
    exact Rule03.pool_acquire_from_found p tgt htgt hfree Rule03.MAX_OBJECTS 0
      (by omega) (by omega) (fun j hj1 hj2 => hskip j hj2)
  · intro p hall
    exact Rule03.pool_acquire_from_none p Rule03.MAX_OBJECTS 0
      (fun j hj1 hj2 => hall j hj2)
  · intro p tgt htgt hskip hfree
    exact Msafe.mpool_acquire_from_found p tgt htgt hfree Msafe.POOL_SIZE 0
      (by omega) (by omega) (fun j hj1 hj2 => hskip j hj2)
  · intro p hall
    exact Msafe.mpool_acquire_from_none p Msafe.POOL_SIZE 0
      (fun j hj1 hj2 => hall j hj2)

/-- A rule03 pool with every slot active. -/
def r3PoolFull : Rule03.ObjectPool :=
  ⟨List.replicate Rule03.MAX_OBJECTS ⟨0, true, List.replicate 64 0⟩,
   Rule03.MAX_OBJECTS⟩

/-- A memory_safety pool with every slot in use. -/
def msPoolFull : Msafe.ObjectPool :=
  ⟨List.replicate Msafe.POOL_SIZE ⟨0, List.replicate 64 0, true⟩,
   Msafe.POOL_SIZE⟩

/-- Witness for C6: on the freshly initialized pools, acquire returns slot 0
and performs exactly the described update; on full pools it returns NULL and
changes nothing. -/
theorem C6_pool_acquire_first_free_witness :
    (Rule03.pool_acquire Rule03.pool_init =
      (some 0, { Rule03.pool_init with
        objects := Rule03.pool_init.objects.set 0
          { Rule03.pool_init.objects.getD 0 ⟨0, false, []⟩ with active := true },
        allocated_count := (Rule03.pool_init.allocated_count + 1) % 2 ^ 64 })) ∧
    (Rule03.pool_acquire r3PoolFull = (none, r3PoolFull)) ∧
    (Msafe.pool_acquire Msafe.pool_init =
      (some 0, { Msafe.pool_init with
        objects := Msafe.pool_init.objects.set 0
          { Msafe.pool_init.objects.getD 0 ⟨0, [], false⟩ with
            in_use := true, id := (0 : Int) },
        allocated_count := (Msafe.pool_init.allocated_count + 1) % 2 ^ 64 })) ∧
    (Msafe.pool_acquire msPoolFull = (none, msPoolFull)) :=
  ⟨C6_pool_acquire_first_free.1 Rule03.pool_init 0 (by decide)
      (fun j hj => absurd hj (Nat.not_lt_zero j)) (by decide),
   C6_pool_acquire_first_free.2.1 r3PoolFull (by decide),
   C6_pool_acquire_first_free.2.2.1 Msafe.pool_init 0 (by decide)
      (fun j hj => absurd hj (Nat.not_lt_zero j)) (by decide),
   C6_pool_acquire_first_free.2.2.2 msPoolFull (by decide)⟩

/-- C7 (amended): for the rule03 pool, releasing NULL, a handle outside the
pool's backing array, or a slot that is already inactive is a no-op, and a
successful release changes only the released slot (payload cleared, flag
cleared) and `allocated_count`.  The memory_safety pool gives the same
guarantees for non-NULL handles (its successful release zeroes the whole
object), but a NULL handle fails its `assert(obj != NULL)` and aborts the
process instead of being a no-op. -/
theorem C7_pool_release_guards :
    (∀ p : Rule03.ObjectPool, Rule03.pool_release p none = p) ∧
    (∀ (p : Rule03.ObjectPool) (k : Int),
      k < 0 ∨ (Rule03.MAX_OBJECTS : Int) ≤ k →
      Rule03.pool_release p (some k) = p) ∧
    (∀ (p : Rule03.ObjectPool) (k : Int), 0 ≤ k →
      k < (Rule03.MAX_OBJECTS : Int) →
      (p.objects.getD k.toNat ⟨0, false, []⟩).active = false →
      Rule03.pool_release p (some k) = p) ∧
    (∀ (p : Rule03.ObjectPool) (k : Int), 0 ≤ k →
      k < (Rule03.MAX_OBJECTS : Int) →
      (p.objects.getD k.toNat ⟨0, false, []⟩).active = true →
      Rule03.pool_release p (some k) = { p with
        objects := p.objects.set k.toNat
          { p.objects.getD k.toNat ⟨0, false, []⟩ with
            data := List.replicate 64 0, active := false },
        allocated_count := (p.allocated_count + (2 ^ 64 - 1)) % 2 ^ 64 }) ∧
    (∀ p : Msafe.ObjectPool, Msafe.pool_release p none = none) ∧
    (∀ (p : Msafe.ObjectPool) (k : Int),
      k < 0 ∨ (Msafe.POOL_SIZE : Int) ≤ k →
      Msafe.pool_release p (some k) = some p) ∧
    (∀ (p : Msafe.ObjectPool) (k : Int), 0 ≤ k →
      k < (Msafe.POOL_SIZE : Int) →
      (p.objects.getD k.toNat ⟨0, [], false⟩).in_use = false →
      Msafe.pool_release p (some k) = some p) ∧
    (∀ (p : Msafe.ObjectPool) (k : Int), 0 ≤ k →
      k < (Msafe.POOL_SIZE : Int) →
      (p.objects.getD k.toNat ⟨0, [], false⟩).in_use = true →
      Msafe.pool_release p (some k) = some { p with
        objects := p.objects.set k.toNat ⟨0, List.replicate 64 0, false⟩,
        allocated_count := (p.allocated_count + (2 ^ 64 - 1)) % 2 ^ 64 }) := by
  refine ⟨fun p => rfl, ?_, ?_, ?_, fun p => rfl, ?_, ?_, ?_⟩
  · intro p k hk
    rw [Rule03.pool_release, if_pos hk]
  · intro p k hk0 hk1 hfree
    rw [Rule03.pool_release, if_neg (by omega)]
    dsimp only
    rw [if_pos hfree]
  · intro p k hk0 hk1 hact
    rw [Rule03.pool_release, if_neg (by omega)]
    dsimp only
    rw [if_neg (by simp [← List.getD_eq_getElem?_getD, hact])]
  · intro p k hk
    rw [Msafe.pool_release, if_pos hk]
  · intro p k hk0 hk1 hfree
    rw [Msafe.pool_release, if_neg (by omega)]
    dsimp only
    rw [if_pos hfree]
  · intro p k hk0 hk1 hact
    rw [Msafe.pool_release, if_neg (by omega)]
    dsimp only
    rw [if_neg (by simp [← List.getD_eq_getElem?_getD, hact])]

/-- A rule03 pool whose slot 0 is active and whose other slots are free. -/
def r3PoolOne : Rule03.ObjectPool :=
  ⟨⟨0, true, List.replicate 64 0⟩ ::
    (List.range 31).map (fun i => ⟨(i : Int) + 1, false, List.replicate 64 0⟩),
   1⟩

/-- A memory_safety pool whose slot 0 is in use and whose other slots are
free. -/
def msPoolOne : Msafe.ObjectPool :=
  ⟨⟨0, List.replicate 64 0, true⟩ ::
    (List.range 31).map (fun i => ⟨(i : Int) + 1, List.replicate 64 0, false⟩),
   1⟩

/-- Witness for C7: on pools whose slot 0 is active, releasing NULL, an
out-of-range handle and the inactive slot 5 are no-ops, and releasing slot 0
performs exactly the described update. -/
theorem C7_pool_release_guards_witness :
    (Rule03.pool_release r3PoolOne none = r3PoolOne) ∧
    (Rule03.pool_release r3PoolOne (some 40) = r3PoolOne) ∧
    (Rule03.pool_release r3PoolOne (some (-3)) = r3PoolOne) ∧
    (Rule03.pool_release r3PoolOne (some 5) = r3PoolOne) ∧
    (Rule03.pool_release r3PoolOne (some 0) = { r3PoolOne with
      objects := r3PoolOne.objects.set (Int.toNat 0)
        { r3PoolOne.objects.getD (Int.toNat 0) ⟨0, false, []⟩ with
          data := List.replicate 64 0, active := false },
      allocated_count := (r3PoolOne.allocated_count + (2 ^ 64 - 1)) % 2 ^ 64 }) ∧
    (Msafe.pool_release msPoolOne none = none) ∧
    (Msafe.pool_release msPoolOne (some 40) = some msPoolOne) ∧
    (Msafe.pool_release msPoolOne (some 5) = some msPoolOne) ∧
    (Msafe.pool_release msPoolOne (some 0) = some { msPoolOne with
      objects := msPoolOne.objects.set (Int.toNat 0)
        ⟨0, List.replicate 64 0, false⟩,
      allocated_count := (msPoolOne.allocated_count + (2 ^ 64 - 1)) % 2 ^ 64 }) :=
  ⟨C7_pool_release_guards.1 _,
   C7_pool_release_guards.2.1 r3PoolOne 40 (by decide),
   C7_pool_release_guards.2.1 r3PoolOne (-3) (by decide),
   C7_pool_release_guards.2.2.1 r3PoolOne 5 (by decide) (by decide) (by decide),
   C7_pool_release_guards.2.2.2.1 r3PoolOne 0 (by decide) (by decide) (by decide),
   C7_pool_release_guards.2.2.2.2.1 _,
   C7_pool_release_guards.2.2.2.2.2.1 msPoolOne 40 (by decide),
   C7_pool_release_guards.2.2.2.2.2.2.1 msPoolOne 5 (by decide) (by decide)
     (by decide),
   C7_pool_release_guards.2.2.2.2.2.2.2 msPoolOne 0 (by decide) (by decide)
     (by decide)⟩

/-- Counterexample to C7 as stated: for the memory_safety pool a NULL
handle is not a no-op that leaves the pool unchanged — `pool_release`
begins with `assert(obj != NULL)`, so the call aborts the process (error
result, no surviving pool state). -/
theorem C7_pool_release_guards_counterexample :
    Msafe.pool_release msPoolOne none ≠ some msPoolOne ∧
    Msafe.pool_release msPoolOne none = none :=
  ⟨by decide, rfl⟩

/-!
## memory_safety arena allocator

The backing buffer is abstracted to its offsets: `arena_alloc` returns the
byte offset of the allocation inside the buffer (`arena->buffer + used` in
C).  All `size_t` arithmetic wraps modulo `2 ^ 64` exactly as in C:
`size = (size + 7) & ~7` is `(size + 7) % 2 ^ 64` with its low three bits
cleared, and both the comparison `used + size > capacity` and the update
`used += size` use the wrapped sum.
-/

namespace Msafe

structure Arena where
  capacity : Nat
  used : Nat
  owns_buffer : Bool
deriving DecidableEq

/-- `arena_create` (successful case): fresh arena of the given capacity. -/
def arena_create (capacity : Nat) : Arena := ⟨capacity, 0, true⟩

/-- `arena_alloc`: align the size to 8 bytes, fail when the wrapped sum
exceeds the capacity, otherwise hand out the current offset and advance. -/
def arena_alloc (a : Arena) (size : Nat) : Option Nat × Arena :=
  if size = 0 then (none, a)
  else
    let sz := (size + 7) % 2 ^ 64 - (size + 7) % 2 ^ 64 % 8
    if (a.used + sz) % 2 ^ 64 > a.capacity then (none, a)
    else (some a.used, { a with used := (a.used + sz) % 2 ^ 64 })

/-- `arena_reset`: drop all allocations at once. -/
def arena_reset (a : Arena) : Arena := { a with used := 0 }

end Msafe

/-- The rounding described by the specification: the least multiple of 8
that is at least `size` (stated from the spec's words, to compare with the
code's wrapped computation). -/
def specRound8 (size : Nat) : Nat := 8 * ((size + 7) / 8)

/-- For sizes small enough that no `size_t` computation wraps, `arena_alloc`
is exactly the ideal bump allocator. -/
theorem arena_alloc_eq (a : Msafe.Arena) (size : Nat) (hpos : 0 < size)
    (hbound : size ≤ 2 ^ 64 - 8) (hov : a.used + specRound8 size < 2 ^ 64) :
    Msafe.arena_alloc a size =
      if a.capacity < a.used + specRound8 size then (none, a)
      else (some a.used, { a with used := a.used + specRound8 size }) := by
  unfold Msafe.arena_alloc specRound8 at *
  rw [if_neg (by omega : ¬ size = 0)]
  dsimp only
  have h1 : (size + 7) % 2 ^ 64 - (size + 7) % 2 ^ 64 % 8 =
      8 * ((size + 7) / 8) := by omega
  rw [h1]
  have h2 : (a.used + 8 * ((size + 7) / 8)) % 2 ^ 64 =
      a.used + 8 * ((size + 7) / 8) := Nat.mod_eq_of_lt (by omega)
  rw [h2]

/-- C5 (amended): for every arena with `used <= capacity` and every
`size > 0` such that no `size_t` computation wraps (`size <= 2^64 - 8` and
`used + rounded < 2^64`), `arena_alloc` rounds the size up to the next
multiple of 8; it returns NULL and leaves the arena unchanged exactly when
the rounded size exceeds `capacity - used`; otherwise it returns the offset
`used` and advances `used` by the rounded size.  Unconditionally (for all
sizes, wrapping included), `used <= capacity` is preserved and, when `used`
is 8-byte aligned, so are the new `used` and every returned offset. -/
theorem C5_arena_alloc_contract :
    (∀ (a : Msafe.Arena) (size : Nat), a.used ≤ a.capacity → 0 < size →
      size ≤ 2 ^ 64 - 8 → a.used + specRound8 size < 2 ^ 64 →
      (((Msafe.arena_alloc a size).1 = none ∧
        (Msafe.arena_alloc a size).2 = a) ↔
        a.capacity - a.used < specRound8 size)) ∧
    (∀ (a : Msafe.Arena) (size : Nat), a.used ≤ a.capacity → 0 < size →
      size ≤ 2 ^ 64 - 8 → a.used + specRound8 size < 2 ^ 64 →
      specRound8 size ≤ a.capacity - a.used →
      Msafe.arena_alloc a size =
        (some a.used, { a with used := a.used + specRound8 size })) ∧
    (∀ (a : Msafe.Arena) (size : Nat), a.used ≤ a.capacity →
      (Msafe.arena_alloc a size).2.used ≤ a.capacity) ∧
    (∀ (a : Msafe.Arena) (size : Nat), a.used % 8 = 0 →
      (Msafe.arena_alloc a size).2.used % 8 = 0 ∧
      ∀ off, (Msafe.arena_alloc a size).1 = some off → off % 8 = 0) := by
  refine ⟨?_, ?_, ?_, ?_⟩
  · intro a size hinv hpos hbound hov
    rw [arena_alloc_eq a size hpos hbound hov]
    rcases Nat.lt_or_ge a.capacity (a.used + specRound8 size) with h | h
    · rw [if_pos h]
      constructor
      · intro _; omega
      · intro _; exact ⟨rfl, rfl⟩
    · rw [if_neg (by omega)]
      constructor
      · rintro ⟨h1, -⟩; cases h1
      · intro hgt; omega
  · intro a size hinv hpos hbound hov hle
    rw [arena_alloc_eq a size hpos hbound hov, if_neg (by omega)]
  · intro a size hinv
    unfold Msafe.arena_alloc
    dsimp only
    split_ifs with h1 h2
    · exact hinv
    · exact hinv
    · exact Nat.le_of_not_lt h2
  · intro a size hal
    unfold Msafe.arena_alloc
    dsimp only
    have hdvd : (8 : Nat) ∣ 2 ^ 64 := by norm_num
    split_ifs with h1 h2
    · exact ⟨hal, fun off h => nomatch h⟩
    · exact ⟨hal, fun off h => nomatch h⟩
    · constructor
      · show (a.used + ((size + 7) % 2 ^ 64 - (size + 7) % 2 ^ 64 % 8)) %
            2 ^ 64 % 8 = 0
        rw [Nat.mod_mod_of_dvd _ hdvd]
        omega
      · intro off h
        have : a.used = off := by simpa using h
        omega

/-- Witness for C5: in a 4096-byte arena, a 100-byte request is rounded to
104, succeeds at offset 0 and advances `used` to 104; in an 8-byte arena a
16-byte request fails and leaves the arena unchanged. -/
theorem C5_arena_alloc_contract_witness :
    (Msafe.arena_alloc (Msafe.arena_create 4096) 100 =
      (some (Msafe.arena_create 4096).used,
       { Msafe.arena_create 4096 with
         used := (Msafe.arena_create 4096).used + specRound8 100 })) ∧
    ((Msafe.arena_alloc (Msafe.arena_create 8) 16).1 = none ∧
      (Msafe.arena_alloc (Msafe.arena_create 8) 16).2 =
        Msafe.arena_create 8) ∧
    ((Msafe.arena_alloc (Msafe.arena_create 8) 16).2.used ≤
      (Msafe.arena_create 8).capacity) ∧
    ((Msafe.arena_alloc (Msafe.arena_create 4096) 100).2.used % 8 = 0) :=
  ⟨C5_arena_alloc_contract.2.1 (Msafe.arena_create 4096) 100 (by decide)
      (by decide) (by norm_num)
      (by norm_num [specRound8, Msafe.arena_create])
      (by norm_num [specRound8, Msafe.arena_create]),
   (C5_arena_alloc_contract.1 (Msafe.arena_create 8) 16 (by decide)
      (by decide) (by norm_num)
      (by norm_num [specRound8, Msafe.arena_create])).mpr
      (by norm_num [specRound8, Msafe.arena_create]),
   C5_arena_alloc_contract.2.2.1 (Msafe.arena_create 8) 16 (by decide),
   (C5_arena_alloc_contract.2.2.2 (Msafe.arena_create 4096) 100 (by decide)).1⟩

/-- Counterexample to C5 as stated: for `size = 2^64 - 1` (a positive size,
arena `used = 0 <= capacity = 8`), the next multiple of 8 is `2^64`, far
beyond the remaining capacity, so the claim requires NULL; but the C
computation `(size + 7) & ~7` wraps to 0, the capacity check passes, and the
call returns the non-NULL offset 0. -/
theorem C5_arena_alloc_counterexample :
    (Msafe.arena_create 8).used ≤ (Msafe.arena_create 8).capacity ∧
    0 < 2 ^ 64 - 1 ∧
    (Msafe.arena_create 8).capacity - (Msafe.arena_create 8).used <
      specRound8 (2 ^ 64 - 1) ∧
    (Msafe.arena_alloc (Msafe.arena_create 8) (2 ^ 64 - 1)).1 = some 0 := by
  refine ⟨by decide, by norm_num, by norm_num [specRound8, Msafe.arena_create], ?_⟩
  norm_num [Msafe.arena_alloc, Msafe.arena_create]

/-!
## rule03 telemetry buffer (C10)
-/

namespace Rule03

def MAX_TELEMETRY_SAMPLES : Nat := 128

/-- `TelemetrySample`: three `float`s and a `uint32_t`; the floats are only
stored and copied, so they are opaque words here. -/
structure TelemetrySample where
  temperature : Nat
  pressure : Nat
  voltage : Nat
  timestamp : Nat
deriving DecidableEq

structure TelemetryBuffer where
  samples : List TelemetrySample
  write_index : Nat
  count : Nat
deriving DecidableEq

/-- `telemetry_init`: `memset` of the whole buffer. -/
def telemetry_init : TelemetryBuffer :=
  ⟨List.replicate MAX_TELEMETRY_SAMPLES ⟨0, 0, 0, 0⟩, 0, 0⟩

/-- `telemetry_add_sample`: unconditionally store at `write_index`, advance
it modulo the capacity, and saturate `count` at the capacity. -/
def telemetry_add_sample (b : TelemetryBuffer)
    (temp pressure voltage timestamp : Nat) : TelemetryBuffer :=
  { b with
    samples := b.samples.set b.write_index ⟨temp, pressure, voltage, timestamp⟩,
    write_index := (b.write_index + 1) % MAX_TELEMETRY_SAMPLES,
    count := if b.count < MAX_TELEMETRY_SAMPLES then b.count + 1 else b.count }

/-- Adding a whole list of samples in order. -/
def telemetry_addList (b : TelemetryBuffer) : List TelemetrySample → TelemetryBuffer
  | [] => b
  | s :: rest =>
    telemetry_addList
      (telemetry_add_sample b s.temperature s.pressure s.voltage s.timestamp)
      rest

theorem telemetry_addList_append (b : TelemetryBuffer)
    (l1 l2 : List TelemetrySample) :
    telemetry_addList b (l1 ++ l2) =
      telemetry_addList (telemetry_addList b l1) l2 := by
  induction l1 generalizing b with
  | nil => rfl
  | cons s rest ih => simp [telemetry_addList, ih]

/-- Full characterization of a run of `telemetry_add_sample` from the
initialized buffer: the count saturates at the capacity, the write index is
the number of adds modulo the capacity, and each cell holds the latest
sample whose sequence number maps to it. -/
theorem telemetry_addList_spec (ss : List TelemetrySample) :
    (telemetry_addList telemetry_init ss).count =
      min ss.length MAX_TELEMETRY_SAMPLES ∧
    (telemetry_addList telemetry_init ss).write_index =
      ss.length % MAX_TELEMETRY_SAMPLES ∧
    (telemetry_addList telemetry_init ss).samples.length =
      MAX_TELEMETRY_SAMPLES ∧
    ∀ j, j < ss.length → ss.length ≤ j + MAX_TELEMETRY_SAMPLES →
      (telemetry_addList telemetry_init ss).samples.getD
        (j % MAX_TELEMETRY_SAMPLES) ⟨0, 0, 0, 0⟩ = ss.getD j ⟨0, 0, 0, 0⟩ := by
  induction ss using List.reverseRecOn with
  | nil =>
    refine ⟨rfl, rfl, by simp [telemetry_addList, telemetry_init], ?_⟩
    intro j hj _
    exact absurd hj (Nat.not_lt_zero j)
  | append_singleton ss x ih =>
    obtain ⟨ihc, ihw, ihl, ihs⟩ := ih
    rw [telemetry_addList_append]
    set b := telemetry_addList telemetry_init ss with hb
    have hwlt : b.write_index < MAX_TELEMETRY_SAMPLES := by
      rw [ihw]; exact Nat.mod_lt _ (by norm_num [MAX_TELEMETRY_SAMPLES])
    have hstep : telemetry_addList b [x] =
        telemetry_add_sample b x.temperature x.pressure x.voltage x.timestamp := rfl
    rw [hstep]
    unfold telemetry_add_sample
    refine ⟨?_, ?_, ?_, ?_⟩
    · show (if b.count < MAX_TELEMETRY_SAMPLES then b.count + 1 else b.count) =
        min (ss ++ [x]).length MAX_TELEMETRY_SAMPLES
      rw [ihc]
      have h128 : MAX_TELEMETRY_SAMPLES = 128 := rfl
      simp only [List.length_append, List.length_singleton, h128, Nat.min_def]
      split_ifs <;> omega
    · show (b.write_index + 1) % MAX_TELEMETRY_SAMPLES =
        (ss ++ [x]).length % MAX_TELEMETRY_SAMPLES
      rw [ihw, Nat.mod_add_mod]
      simp
    · show (b.samples.set b.write_index _).length = MAX_TELEMETRY_SAMPLES
      rw [List.length_set, ihl]
    · intro j hj1 hj2
      simp only [List.length_append, List.length_singleton] at hj1 hj2
      by_cases hje : j = ss.length
      · subst hje
        show (b.samples.set b.write_index _).getD _ _ = _
        rw [ihw]
        rw [CArr.getD_set_self _ _ _ _ (by rw [ihl]; exact Nat.mod_lt _ (by norm_num [MAX_TELEMETRY_SAMPLES]))]
        rw [List.getD_eq_getElem?_getD, List.getElem?_append_right (le_refl _)]
        simp
      · have hjlt : j < ss.length := by omega
        show (b.samples.set b.write_index _).getD _ _ = _
        have h128 : MAX_TELEMETRY_SAMPLES = 128 := rfl
        have hne : b.write_index ≠ j % MAX_TELEMETRY_SAMPLES := by
          rw [ihw, h128]
          rw [h128] at hj2
          omega
        rw [CArr.getD_set_ne _ _ _ _ _ hne]
        have happ : (ss ++ [x]).getD j ⟨0, 0, 0, 0⟩ = ss.getD j ⟨0, 0, 0, 0⟩ := by
          rw [List.getD_eq_getElem?_getD, List.getD_eq_getElem?_getD,
            List.getElem?_append, if_pos hjlt]
        rw [ihs j hjlt (by omega), happ]

end Rule03

/-- C10: the telemetry buffer is an overwriting ring: `telemetry_add_sample`
never fails — it always stores at `write_index` and advances it modulo
`MAX_TELEMETRY_SAMPLES`; after any sequence of adds from `telemetry_init`,
`count <= MAX_TELEMETRY_SAMPLES` and `write_index < MAX_TELEMETRY_SAMPLES`;
and once at least `MAX_TELEMETRY_SAMPLES` samples have been added, `count`
stays at the capacity and the cell the next add will overwrite holds the
oldest stored sample. -/
theorem C10_telemetry_overwriting_ring :
    (∀ (b : Rule03.TelemetryBuffer) (t p v ts : Nat),
      Rule03.telemetry_add_sample b t p v ts =
        { b with
          samples := b.samples.set b.write_index ⟨t, p, v, ts⟩,
          write_index := (b.write_index + 1) % Rule03.MAX_TELEMETRY_SAMPLES,
          count := if b.count < Rule03.MAX_TELEMETRY_SAMPLES then b.count + 1
                   else b.count }) ∧
    (∀ ss : List Rule03.TelemetrySample,
      (Rule03.telemetry_addList Rule03.telemetry_init ss).count ≤
        Rule03.MAX_TELEMETRY_SAMPLES ∧
      (Rule03.telemetry_addList Rule03.telemetry_init ss).write_index <
        Rule03.MAX_TELEMETRY_SAMPLES) ∧
    (∀ ss : List Rule03.TelemetrySample,
      Rule03.MAX_TELEMETRY_SAMPLES ≤ ss.length →
      (Rule03.telemetry_addList Rule03.telemetry_init ss).count =
        Rule03.MAX_TELEMETRY_SAMPLES ∧
      (Rule03.telemetry_addList Rule03.telemetry_init ss).samples.getD
        (Rule03.telemetry_addList Rule03.telemetry_init ss).write_index
        ⟨0, 0, 0, 0⟩ =
        ss.getD (ss.length - Rule03.MAX_TELEMETRY_SAMPLES) ⟨0, 0, 0, 0⟩ ∧
      ∀ t p v ts,
        (Rule03.telemetry_add_sample
          (Rule03.telemetry_addList Rule03.telemetry_init ss) t p v ts).count =
          Rule03.MAX_TELEMETRY_SAMPLES) := by
  have h128 : Rule03.MAX_TELEMETRY_SAMPLES = 128 := rfl
  refine ⟨fun b t p v ts => rfl, ?_, ?_⟩
  · intro ss
    obtain ⟨hc, hw, -, -⟩ := Rule03.telemetry_addList_spec ss
    constructor
    · rw [hc]; exact Nat.min_le_right _ _
    · rw [hw]; exact Nat.mod_lt _ (by norm_num [h128])
  · intro ss hlen
    obtain ⟨hc, hw, -, hs⟩ := Rule03.telemetry_addList_spec ss
    have hcount : (Rule03.telemetry_addList Rule03.telemetry_init ss).count =
        Rule03.MAX_TELEMETRY_SAMPLES := by
      rw [hc, h128]
      rw [h128] at hlen
      omega
    refine ⟨hcount, ?_, ?_⟩
    · have hmod : (ss.length - Rule03.MAX_TELEMETRY_SAMPLES) %
          Rule03.MAX_TELEMETRY_SAMPLES = ss.length % Rule03.MAX_TELEMETRY_SAMPLES := by
        rw [h128]
        rw [h128] at hlen
        omega
      have := hs (ss.length - Rule03.MAX_TELEMETRY_SAMPLES)
        (by rw [h128] at hlen ⊢; omega) (by rw [h128] at hlen ⊢; omega)
      rw [hmod] at this
      rw [hw, this]
    · intro t p v ts
      show (if (Rule03.telemetry_addList Rule03.telemetry_init ss).count <
          Rule03.MAX_TELEMETRY_SAMPLES then _ else
          (Rule03.telemetry_addList Rule03.telemetry_init ss).count) =
        Rule03.MAX_TELEMETRY_SAMPLES
      rw [hcount, if_neg (by omega)]

/-- A run of 129 distinguishable samples for the C10 witness. -/
def tSamples129 : List Rule03.TelemetrySample :=
  (List.range 129).map (fun i => ⟨i, 0, 0, 0⟩)

/-- Witness for C10: after 129 adds the count is pinned at 128, the next
write position holds sample number 1 (the oldest surviving one), and a
further add keeps the count at 128. -/
theorem C10_telemetry_overwriting_ring_witness :
    (Rule03.telemetry_add_sample Rule03.telemetry_init 5 6 7 8 =
      { Rule03.telemetry_init with
        samples := Rule03.telemetry_init.samples.set
          Rule03.telemetry_init.write_index ⟨5, 6, 7, 8⟩,
        write_index := (Rule03.telemetry_init.write_index + 1) %
          Rule03.MAX_TELEMETRY_SAMPLES,
        count := if Rule03.telemetry_init.count < Rule03.MAX_TELEMETRY_SAMPLES
                 then Rule03.telemetry_init.count + 1
                 else Rule03.telemetry_init.count }) ∧
    ((Rule03.telemetry_addList Rule03.telemetry_init tSamples129).count ≤
      Rule03.MAX_TELEMETRY_SAMPLES) ∧
    ((Rule03.telemetry_addList Rule03.telemetry_init tSamples129).count =
      Rule03.MAX_TELEMETRY_SAMPLES) ∧
    ((Rule03.telemetry_addList Rule03.telemetry_init tSamples129).samples.getD
      (Rule03.telemetry_addList Rule03.telemetry_init tSamples129).write_index
      ⟨0, 0, 0, 0⟩ =
      tSamples129.getD (tSamples129.length - Rule03.MAX_TELEMETRY_SAMPLES)
        ⟨0, 0, 0, 0⟩) ∧
    (∀ t p v ts, (Rule03.telemetry_add_sample
      (Rule03.telemetry_addList Rule03.telemetry_init tSamples129) t p v ts).count =
      Rule03.MAX_TELEMETRY_SAMPLES) :=
  ⟨C10_telemetry_overwriting_ring.1 Rule03.telemetry_init 5 6 7 8,
   (C10_telemetry_overwriting_ring.2.1 tSamples129).1,
   (C10_telemetry_overwriting_ring.2.2 tSamples129 (by decide)).1,
   (C10_telemetry_overwriting_ring.2.2 tSamples129 (by decide)).2.1,
   (C10_telemetry_overwriting_ring.2.2 tSamples129 (by decide)).2.2⟩

/-!
## rule03 index-linked static list (C9)
-/

namespace Rule03

def MAX_NODES : Nat := 100

/-- `StaticNode`: `int value; int next; bool in_use` — `next` is an index,
`-1` meaning none. -/
structure StaticNode where
  value : Int
  next : Int
  in_use : Bool
deriving DecidableEq

structure StaticList where
  nodes : List StaticNode
  head : Int
  count : Nat
deriving DecidableEq

/-- `list_init`: reset head and count and mark every node unused with no
successor (node values are left as they are). -/
def list_init (l : StaticList) : StaticList :=
  { l with
    head := -1,
    count := 0,
    nodes := l.nodes.map (fun n => { n with in_use := false, next := -1 }) }

/-- The find-free loop of `list_add`; `fuel` is the number of remaining
iterations (`MAX_NODES - i`). -/
def list_find_free (nodes : List StaticNode) (fuel i : Nat) : Int :=
  match fuel with
  | 0 => -1
  | fuel + 1 =>
    if i < MAX_NODES then
      if (nodes.getD i ⟨0, -1, false⟩).in_use = false then (i : Int)
      else list_find_free nodes fuel (i + 1)
    else -1

/-- `list_add`: reject when the list is full, otherwise fill the first free
node, link it in front of the current head and make it the new head. -/
def list_add (l : StaticList) (value : Int) : Bool × StaticList :=
  if l.count ≥ MAX_NODES then (false, l)
  else
    let free_idx := list_find_free l.nodes MAX_NODES 0
    if free_idx = -1 then (false, l)
    else
      (true, { l with
        nodes := l.nodes.set free_idx.toNat
          ⟨value, l.head, true⟩,
        head := free_idx,
        count := l.count + 1 })

/-- Adding a whole list of values in order, collecting each call's result. -/
def list_addList (l : StaticList) : List Int → List Bool × StaticList
  | [] => ([], l)
  | v :: rest =>
    let (ok, l') := list_add l v
    let (oks, lf) := list_addList l' rest
    (ok :: oks, lf)

/-- The traversal loop of `list_print`: follow `next` indices while the
current index is not `-1` and fewer than `MAX_NODES` iterations have been
done; returns the values visited.  `fuel` is the remaining iteration budget
(`MAX_NODES - iterations`). -/
def list_walk (nodes : List StaticNode) (fuel : Nat) (current : Int)
    (iterations : Nat) : List Int :=
  match fuel with
  | 0 => []
  | fuel + 1 =>
    if current ≠ -1 ∧ iterations < MAX_NODES then
      (nodes.getD current.toNat ⟨0, -1, false⟩).value ::
        list_walk nodes fuel
          (nodes.getD current.toNat ⟨0, -1, false⟩).next (iterations + 1)
    else []

/-- The values printed by `list_print`. -/
def list_print_visits (l : StaticList) : List Int :=
  list_walk l.nodes MAX_NODES l.head 0

/-- The traversal loop never visits more cells than its iteration bound
allows. -/
theorem list_walk_length (nodes : List StaticNode) : ∀ (fuel : Nat)
    (current : Int) (iterations : Nat),
    (list_walk nodes fuel current iterations).length ≤
      MAX_NODES - iterations := by
  intro fuel
  induction fuel with
  | zero => intro current iterations; simp [list_walk]
  | succ fuel ih =>
    intro current iterations
    rw [list_walk]
    by_cases h : current ≠ -1 ∧ iterations < MAX_NODES
    · rw [if_pos h]
      have := ih (nodes.getD current.toNat ⟨0, -1, false⟩).next (iterations + 1)
      simp only [List.length_cons]
      omega
    · rw [if_neg h]
      simp

/-- The find-free scan returns the first unused index. -/
theorem list_find_free_spec (nodes : List StaticNode) (tgt : Nat)
    (htgt : tgt < MAX_NODES)
    (hfree : (nodes.getD tgt ⟨0, -1, false⟩).in_use = false) :
    ∀ fuel i, i ≤ tgt → tgt < i + fuel →
    (∀ j, i ≤ j → j < tgt → (nodes.getD j ⟨0, -1, false⟩).in_use = true) →
    list_find_free nodes fuel i = (tgt : Int) := by
  intro fuel
  induction fuel with
  | zero => intro i h1 h2 _; exact absurd h2 (by omega)
  | succ fuel ih =>
    intro i h1 h2 hskip
    by_cases heq : i = tgt
    · subst heq
      rw [list_find_free, if_pos htgt, if_pos hfree]
    · have hi : i < tgt := by omega
      rw [list_find_free, if_pos (by omega : i < MAX_NODES),
        if_neg (by simp [← List.getD_eq_getElem?_getD, hskip i le_rfl hi])]
      exact ih (i + 1) (by omega) (by omega)
        (fun j hj1 hj2 => hskip j (by omega) hj2)

/-- Invariant of a run of `list_add`: after `k` successful adds the nodes
`0, …, k-1` hold the added values, each linked to its predecessor, the head
is `k-1`, and all other nodes are unused. -/
def listInv (l : StaticList) (vs : List Int) : Prop :=
  l.count = vs.length ∧ l.head = (vs.length : Int) - 1 ∧
  l.nodes.length = MAX_NODES ∧
  (∀ i, i < vs.length →
    l.nodes.getD i ⟨0, -1, false⟩ = ⟨vs.getD i 0, (i : Int) - 1, true⟩) ∧
  (∀ i, vs.length ≤ i → (l.nodes.getD i ⟨0, -1, false⟩).in_use = false)

theorem listInv_init (l0 : StaticList) (hlen : l0.nodes.length = MAX_NODES) :
    listInv (list_init l0) [] := by
  refine ⟨rfl, by simp [list_init], by simp [list_init, hlen], ?_, ?_⟩
  · intro i hi; exact absurd hi (Nat.not_lt_zero i)
  · intro i _
    simp only [list_init]
    rw [List.getD_eq_getElem?_getD, List.getElem?_map]
    cases l0.nodes[i]? <;> rfl

theorem list_addList_inv (vs : List Int) : ∀ (l : StaticList) (pref : List Int),
    listInv l pref → pref.length + vs.length ≤ MAX_NODES →
    (list_addList l vs).1 = List.replicate vs.length true ∧
    listInv (list_addList l vs).2 (pref ++ vs) := by
  induction vs with
  | nil =>
    intro l pref hinv _
    exact ⟨rfl, by simpa using hinv⟩
  | cons v rest ih =>
    intro l pref hinv hlen
    obtain ⟨hc, hh, hn, hused, hfree⟩ := hinv
    simp only [List.length_cons] at hlen
    have hk : pref.length < MAX_NODES := by omega
    have hguard : ¬ l.count ≥ MAX_NODES := by omega
    have hff : list_find_free l.nodes MAX_NODES 0 = (pref.length : Int) :=
      list_find_free_spec l.nodes pref.length hk (hfree _ le_rfl)
        MAX_NODES 0 (by omega) (by omega)
        (fun j hj1 hj2 => by rw [hused j hj2])
    set l1 : StaticList := { l with
      nodes := l.nodes.set pref.length ⟨v, l.head, true⟩,
      head := (pref.length : Int),
      count := l.count + 1 } with hl1
    have hstep : list_add l v = (true, l1) := by
      rw [list_add, if_neg hguard]
      dsimp only
      rw [hff, if_neg (by simp), Int.toNat_natCast]
    have hinv' : listInv l1 (pref ++ [v]) := by
      refine ⟨?_, ?_, ?_, ?_, ?_⟩
      · show l.count + 1 = (pref ++ [v]).length
        simp [hc]
      · show (pref.length : Int) = ((pref ++ [v]).length : Int) - 1
        simp
      · show (l.nodes.set pref.length ⟨v, l.head, true⟩).length = MAX_NODES
        simp [hn]
      · intro i hi
        simp only [List.length_append, List.length_singleton] at hi
        show (l.nodes.set pref.length ⟨v, l.head, true⟩).getD i ⟨0, -1, false⟩ = _
        by_cases hie : i = pref.length
        · subst hie
          rw [CArr.getD_set_self _ _ _ _ (by omega)]
          have hgv : (pref ++ [v]).getD pref.length 0 = v := by
            rw [List.getD_eq_getElem?_getD,
              List.getElem?_append_right (le_refl _)]
            simp
          rw [hgv, hh]
        · have hilt : i < pref.length := by omega
          rw [CArr.getD_set_ne _ _ _ _ _ (by omega), hused i hilt]
          have hgp : (pref ++ [v]).getD i 0 = pref.getD i 0 := by
            rw [List.getD_eq_getElem?_getD, List.getD_eq_getElem?_getD,
              List.getElem?_append, if_pos hilt]
          rw [hgp]
      · intro i hi
        simp only [List.length_append, List.length_singleton] at hi
        show ((l.nodes.set pref.length ⟨v, l.head, true⟩).getD i
          ⟨0, -1, false⟩).in_use = false
        rw [CArr.getD_set_ne _ _ _ _ _ (by omega)]
        exact hfree i (by omega)
    rcases hr : list_addList l1 rest with ⟨oks, lf⟩
    have IH := ih l1 (pref ++ [v]) hinv'
      (by simp only [List.length_append, List.length_singleton]; omega)
    rw [hr] at IH
    have IH1 : oks = List.replicate rest.length true := IH.1
    have IH2 : listInv lf ((pref ++ [v]) ++ rest) := IH.2
    refine ⟨?_, ?_⟩
    · simp only [list_addList, hstep, hr, List.length_cons,
        List.replicate_succ, IH1]
    · have happ : (pref ++ [v]) ++ rest = pref ++ v :: rest := by simp
      rw [← happ]
      simp only [list_addList, hstep, hr]
      exact IH2

end Rule03

namespace Rule03

/-- Traversal of a list satisfying the add-run invariant visits exactly the
first `j` added values, newest first. -/
theorem list_walk_visits (l : StaticList) (vs : List Int)
    (hinv : listInv l vs) :
    ∀ j, j ≤ vs.length → ∀ fuel it, j ≤ fuel → it + j ≤ MAX_NODES →
    list_walk l.nodes fuel ((j : Int) - 1) it = (vs.take j).reverse := by
  obtain ⟨-, -, hnlen, hused, -⟩ := hinv
  intro j
  induction j with
  | zero =>
    intro _ fuel it _ _
    cases fuel with
    | zero => simp [list_walk]
    | succ fuel =>
      rw [list_walk, if_neg (by simp)]
      simp
  | succ j ih =>
    intro hj fuel it hfuel hit
    cases fuel with
    | zero => omega
    | succ fuel =>
      rw [list_walk, if_pos ⟨by omega, by omega⟩]
      have hcur : ((j + 1 : Nat) : Int) - 1 = (j : Int) := by push_cast; ring
      rw [hcur, Int.toNat_natCast, hused j (by omega)]
      dsimp only
      rw [ih (by omega) fuel (it + 1) (by omega) (by omega)]
      rw [CArr.take_succ_getD vs j 0 (by omega)]
      simp

end Rule03

/-- C9: from `list_init`, `n <= MAX_NODES` calls of `list_add` all succeed
and the traversal of `list_print` visits exactly the `n` added values in
reverse insertion order; and on every list state — cyclic `next` chains
included — the traversal performs at most `MAX_NODES` iterations, hence
terminates. -/
theorem C9_list_traversal_exact_and_bounded :
    (∀ (l0 : Rule03.StaticList) (vs : List Int),
      l0.nodes.length = Rule03.MAX_NODES → vs.length ≤ Rule03.MAX_NODES →
      (Rule03.list_addList (Rule03.list_init l0) vs).1 =
        List.replicate vs.length true ∧
      Rule03.list_print_visits
        (Rule03.list_addList (Rule03.list_init l0) vs).2 = vs.reverse) ∧
    (∀ l : Rule03.StaticList,
      (Rule03.list_print_visits l).length ≤ Rule03.MAX_NODES) := by
  constructor
  · intro l0 vs hlen hvs
    have hinv0 := Rule03.listInv_init l0 hlen
    have h := Rule03.list_addList_inv vs (Rule03.list_init l0) [] hinv0
      (by simpa using hvs)
    refine ⟨h.1, ?_⟩
    have hinv := h.2
    simp only [List.nil_append] at hinv
    have hh := hinv.2.1
    unfold Rule03.list_print_visits
    rw [hh]
    rw [Rule03.list_walk_visits _ vs hinv vs.length le_rfl Rule03.MAX_NODES 0
      hvs (by omega), List.take_length]
  · intro l
    have h := Rule03.list_walk_length l.nodes Rule03.MAX_NODES l.head 0
    unfold Rule03.list_print_visits
    omega

/-- An arbitrary pre-init list state (all node values zeroed). -/
def sList0 : Rule03.StaticList :=
  ⟨List.replicate 100 ⟨0, 0, false⟩, 0, 0⟩

/-- A corrupted list state whose `next` chain is a self-loop at node 0. -/
def sListCyclic : Rule03.StaticList :=
  ⟨List.replicate 100 ⟨7, 0, true⟩, 0, 99⟩

/-- Witness for C9: adding 10, 20, 30 from the initialized list succeeds and
printing visits 30, 20, 10; on a self-looping corrupted list the traversal
still stops within `MAX_NODES` visits. -/
theorem C9_list_traversal_exact_and_bounded_witness :
    ((Rule03.list_addList (Rule03.list_init sList0) [10, 20, 30]).1 =
      List.replicate 3 true ∧
     Rule03.list_print_visits
       (Rule03.list_addList (Rule03.list_init sList0) [10, 20, 30]).2 =
       [30, 20, 10]) ∧
    ((Rule03.list_print_visits sListCyclic).length ≤ Rule03.MAX_NODES) :=
  ⟨(C9_list_traversal_exact_and_bounded.1 sList0 [10, 20, 30] (by decide)
      (by decide)).imp (fun h => h) (fun h => h),
   C9_list_traversal_exact_and_bounded.2 sListCyclic⟩

/-!
## memory_safety string hash table (C3, C4)

Keys and values are C strings, modelled as the byte lists of their contents;
`strncpy(dst, src, N - 1); dst[N - 1] = 0` stores `src.take (N - 1)` and
`strcmp == 0` is list equality.  The probe loops run `probe` upward while
`probe < HASH_TABLE_SIZE`; `fuel` is the remaining number of iterations
(`HASH_TABLE_SIZE - probe`), making the recursion structural — both the
exhausted-loop exit and the `fuel = 0` exit return the same result.
-/

namespace Msafe

def HASH_TABLE_SIZE : Nat := 128
def KEY_SIZE : Nat := 32
def VALUE_SIZE : Nat := 64

structure HashEntry where
  key : List Nat
  value : List Nat
  occupied : Bool
deriving DecidableEq

structure HashTable where
  entries : List HashEntry
  count : Nat
deriving DecidableEq

/-- DJB2: `hash = 33 * hash + c` in `uint32_t`, reduced mod the table
size. -/
def hash_string (s : List Nat) : Nat :=
  (s.foldl (fun h c => (h * 33 + c) % 2 ^ 32) 5381) % HASH_TABLE_SIZE

def hash_table_init : HashTable :=
  ⟨List.replicate HASH_TABLE_SIZE ⟨[], [], false⟩, 0⟩

/-- The probe loop of `hash_table_insert`: stop at the first unoccupied slot
(fresh insert, count incremented) or at the first slot whose key compares
equal (value updated in place). -/
def hash_table_insert_from (t : HashTable) (k v : List Nat) (fuel probe : Nat) :
    Bool × HashTable :=
  match fuel with
  | 0 => (false, t)
  | fuel + 1 =>
    if probe < HASH_TABLE_SIZE then
      let current := (hash_string k + probe) % HASH_TABLE_SIZE
      let e := t.entries.getD current ⟨[], [], false⟩
      if e.occupied = false then
        (true, ⟨t.entries.set current
          ⟨k.take (KEY_SIZE - 1), v.take (VALUE_SIZE - 1), true⟩,
          (t.count + 1) % 2 ^ 64⟩)
      else if e.key = k then
        (true, ⟨t.entries.set current { e with value := v.take (VALUE_SIZE - 1) },
          t.count⟩)
      else hash_table_insert_from t k v fuel (probe + 1)
    else (false, t)

def hash_table_insert (t : HashTable) (k v : List Nat) : Bool × HashTable :=
  hash_table_insert_from t k v HASH_TABLE_SIZE 0

/-- The probe loop of `hash_table_get`: stop with failure at the first
unoccupied slot, or return the value (copied into a buffer of `out_size`
bytes, hence truncated to `out_size - 1`) at the first key match. -/
def hash_table_get_from (t : HashTable) (k : List Nat) (out_size : Nat)
    (fuel probe : Nat) : Option (List Nat) :=
  match fuel with
  | 0 => none
  | fuel + 1 =>
    if probe < HASH_TABLE_SIZE then
      let current := (hash_string k + probe) % HASH_TABLE_SIZE
      let e := t.entries.getD current ⟨[], [], false⟩
      if e.occupied = false then none
      else if e.key = k then some (e.value.take (out_size - 1))
      else hash_table_get_from t k out_size fuel (probe + 1)
    else none

def hash_table_get (t : HashTable) (k : List Nat) (out_size : Nat) :
    Option (List Nat) :=
  hash_table_get_from t k out_size HASH_TABLE_SIZE 0

/-- Running a sequence of inserts left to right. -/
def ht_insertList (t : HashTable) : List (List Nat × List Nat) → HashTable
  | [] => t
  | (k, v) :: rest => ht_insertList (hash_table_insert t k v).2 rest

/-- `true` iff every insert of the sequence returns true. -/
def ht_allOk (t : HashTable) : List (List Nat × List Nat) → Bool
  | [] => true
  | (k, v) :: rest =>
    (hash_table_insert t k v).1 && ht_allOk (hash_table_insert t k v).2 rest

/-- The value of the last insert of key `k` in the sequence, if any. -/
def lastValue (k : List Nat) : List (List Nat × List Nat) → Option (List Nat)
  | [] => none
  | (k', v) :: rest =>
    match lastValue k rest with
    | some w => some w
    | none => if k' = k then some v else none

/-- Number of occupied slots. -/
def occupiedCount (t : HashTable) : Nat :=
  t.entries.countP (fun e => e.occupied)

end Msafe

/-!
## rule03 integer hash table (C4)
-/

namespace Rule03

def HASH_TABLE_SIZE : Nat := 32

structure HashEntry where
  key : Int
  value : Int
  occupied : Bool
deriving DecidableEq

structure HashTable where
  entries : List HashEntry
deriving DecidableEq

def hash_table_init : HashTable :=
  ⟨List.replicate HASH_TABLE_SIZE ⟨0, 0, false⟩⟩

/-- `(size_t)key % HASH_TABLE_SIZE`: the `int` key is converted to the
64-bit unsigned `size_t` (two's complement, i.e. reduction mod `2^64`)
before the remainder is taken. -/
def hash_function (key : Int) : Nat :=
  (key % (2 ^ 64 : Int)).toNat % HASH_TABLE_SIZE

/-- The probe loop of the rule03 `hash_table_insert`: it stops only at an
unoccupied slot — an existing slot with the same key is probed past, never
updated.  `fuel` is the remaining number of attempts. -/
def hash_table_insert_from (t : HashTable) (k v : Int) (fuel index : Nat) :
    Bool × HashTable :=
  match fuel with
  | 0 => (false, t)
  | fuel + 1 =>
    let e := t.entries.getD index ⟨0, 0, false⟩
    if e.occupied = false then
      (true, ⟨t.entries.set index ⟨k, v, true⟩⟩)
    else hash_table_insert_from t k v fuel ((index + 1) % HASH_TABLE_SIZE)

def hash_table_insert (t : HashTable) (k v : Int) : Bool × HashTable :=
  hash_table_insert_from t k v HASH_TABLE_SIZE (hash_function k)

/-- The probe loop of `hash_table_lookup`. -/
def hash_table_lookup_from (t : HashTable) (k : Int) (fuel index : Nat) :
    Option Int :=
  match fuel with
  | 0 => none
  | fuel + 1 =>
    let e := t.entries.getD index ⟨0, 0, false⟩
    if e.occupied = false then none
    else if e.key = k then some e.value
    else hash_table_lookup_from t k fuel ((index + 1) % HASH_TABLE_SIZE)

def hash_table_lookup (t : HashTable) (k : Int) : Option Int :=
  hash_table_lookup_from t k HASH_TABLE_SIZE (hash_function k)

/-- Number of occupied slots. -/
def ht_occupiedCount (t : HashTable) : Nat :=
  t.entries.countP (fun e => e.occupied)

end Rule03

namespace Msafe

theorem hash_string_lt (s : List Nat) : hash_string s < HASH_TABLE_SIZE :=
  Nat.mod_lt _ (by norm_num [HASH_TABLE_SIZE])

/-- Probe offset at which the scan started at `h` reaches slot `i`. -/
def probeDist (h i : Nat) : Nat :=
  (HASH_TABLE_SIZE + i - h) % HASH_TABLE_SIZE

theorem probeDist_lt (h i : Nat) : probeDist h i < HASH_TABLE_SIZE :=
  Nat.mod_lt _ (by norm_num [HASH_TABLE_SIZE])

theorem probeDist_spec (h i : Nat) (hh : h < HASH_TABLE_SIZE)
    (hi : i < HASH_TABLE_SIZE) :
    (h + probeDist h i) % HASH_TABLE_SIZE = i := by
  have h128 : HASH_TABLE_SIZE = 128 := rfl
  unfold probeDist
  rw [h128] at hh hi ⊢
  omega

theorem probeDist_unique (h i p : Nat) (hh : h < HASH_TABLE_SIZE)
    (hi : i < HASH_TABLE_SIZE) (hp : p < HASH_TABLE_SIZE)
    (he : (h + p) % HASH_TABLE_SIZE = i) : p = probeDist h i := by
  have h128 : HASH_TABLE_SIZE = 128 := rfl
  unfold probeDist
  rw [h128] at hh hi hp he ⊢
  omega

/-- The insert scan, with all slots strictly before `p0` occupied by other
keys and slot `p0` holding key `k`, updates slot `p0` in place. -/
theorem ms_insert_from_match (t : HashTable) (k v : List Nat) (p0 : Nat)
    (hp0 : p0 < HASH_TABLE_SIZE)
    (hocc : (t.entries.getD ((hash_string k + p0) % HASH_TABLE_SIZE)
      ⟨[], [], false⟩).occupied = true)
    (hkey : (t.entries.getD ((hash_string k + p0) % HASH_TABLE_SIZE)
      ⟨[], [], false⟩).key = k) :
    ∀ fuel probe, probe ≤ p0 → p0 < probe + fuel →
    (∀ q, probe ≤ q → q < p0 →
      (t.entries.getD ((hash_string k + q) % HASH_TABLE_SIZE)
        ⟨[], [], false⟩).occupied = true ∧
      (t.entries.getD ((hash_string k + q) % HASH_TABLE_SIZE)
        ⟨[], [], false⟩).key ≠ k) →
    hash_table_insert_from t k v fuel probe =
      (true, ⟨t.entries.set ((hash_string k + p0) % HASH_TABLE_SIZE)
        { t.entries.getD ((hash_string k + p0) % HASH_TABLE_SIZE)
            ⟨[], [], false⟩ with
          value := v.take (VALUE_SIZE - 1) }, t.count⟩) := by
  intro fuel
  induction fuel with
  | zero => intro probe h1 h2 _; exact absurd h2 (by omega)
  | succ fuel ih =>
    intro probe h1 h2 hskip
    by_cases heq : probe = p0
    · subst heq
      rw [hash_table_insert_from, if_pos hp0]
      dsimp only
      rw [if_neg (by simp [← List.getD_eq_getElem?_getD, hocc]), if_pos hkey]
    · have hlt : probe < p0 := by omega
      rw [hash_table_insert_from, if_pos (by omega : probe < HASH_TABLE_SIZE)]
      dsimp only
      rw [if_neg (by simp [← List.getD_eq_getElem?_getD,
            (hskip probe le_rfl hlt).1]),
          if_neg (by exact (hskip probe le_rfl hlt).2)]
      exact ih (probe + 1) (by omega) (by omega)
        (fun q hq1 hq2 => hskip q (by omega) hq2)

/-- The insert scan, with all slots strictly before `p0` occupied by other
keys and slot `p0` free, inserts the (truncated) pair there and increments
the count. -/
theorem ms_insert_from_free (t : HashTable) (k v : List Nat) (p0 : Nat)
    (hp0 : p0 < HASH_TABLE_SIZE)
    (hfree : (t.entries.getD ((hash_string k + p0) % HASH_TABLE_SIZE)
      ⟨[], [], false⟩).occupied = false) :
    ∀ fuel probe, probe ≤ p0 → p0 < probe + fuel →
    (∀ q, probe ≤ q → q < p0 →
      (t.entries.getD ((hash_string k + q) % HASH_TABLE_SIZE)
        ⟨[], [], false⟩).occupied = true ∧
      (t.entries.getD ((hash_string k + q) % HASH_TABLE_SIZE)
        ⟨[], [], false⟩).key ≠ k) →
    hash_table_insert_from t k v fuel probe =
      (true, ⟨t.entries.set ((hash_string k + p0) % HASH_TABLE_SIZE)
        ⟨k.take (KEY_SIZE - 1), v.take (VALUE_SIZE - 1), true⟩,
        (t.count + 1) % 2 ^ 64⟩) := by
  intro fuel
  induction fuel with
  | zero => intro probe h1 h2 _; exact absurd h2 (by omega)
  | succ fuel ih =>
    intro probe h1 h2 hskip
    by_cases heq : probe = p0
    · subst heq
      rw [hash_table_insert_from, if_pos hp0]
      dsimp only
      rw [if_pos hfree]
    · have hlt : probe < p0 := by omega
      rw [hash_table_insert_from, if_pos (by omega : probe < HASH_TABLE_SIZE)]
      dsimp only
      rw [if_neg (by simp [← List.getD_eq_getElem?_getD,
            (hskip probe le_rfl hlt).1]),
          if_neg (by exact (hskip probe le_rfl hlt).2)]
      exact ih (probe + 1) (by omega) (by omega)
        (fun q hq1 hq2 => hskip q (by omega) hq2)

/-- The insert scan fails when every remaining slot is occupied by another
key. -/
theorem ms_insert_from_fail (t : HashTable) (k v : List Nat) :
    ∀ fuel probe,
    (∀ q, probe ≤ q → q < HASH_TABLE_SIZE →
      (t.entries.getD ((hash_string k + q) % HASH_TABLE_SIZE)
        ⟨[], [], false⟩).occupied = true ∧
      (t.entries.getD ((hash_string k + q) % HASH_TABLE_SIZE)
        ⟨[], [], false⟩).key ≠ k) →
    hash_table_insert_from t k v fuel probe = (false, t) := by
  intro fuel
  induction fuel with
  | zero => intro probe _; rw [hash_table_insert_from]
  | succ fuel ih =>
    intro probe hall
    by_cases hp : probe < HASH_TABLE_SIZE
    · rw [hash_table_insert_from, if_pos hp]
      dsimp only
      rw [if_neg (by simp [← List.getD_eq_getElem?_getD,
            (hall probe le_rfl hp).1]),
          if_neg (by exact (hall probe le_rfl hp).2)]
      exact ih (probe + 1) (fun q hq1 hq2 => hall q (by omega) hq2)
    · rw [hash_table_insert_from, if_neg hp]

/-- The get scan, with all slots strictly before `p0` occupied by other keys
and slot `p0` holding key `k`, returns slot `p0`'s value (truncated to the
output buffer). -/
theorem ms_get_from_found (t : HashTable) (k : List Nat) (out_size p0 : Nat)
    (hp0 : p0 < HASH_TABLE_SIZE)
    (hocc : (t.entries.getD ((hash_string k + p0) % HASH_TABLE_SIZE)
      ⟨[], [], false⟩).occupied = true)
    (hkey : (t.entries.getD ((hash_string k + p0) % HASH_TABLE_SIZE)
      ⟨[], [], false⟩).key = k) :
    ∀ fuel probe, probe ≤ p0 → p0 < probe + fuel →
    (∀ q, probe ≤ q → q < p0 →
      (t.entries.getD ((hash_string k + q) % HASH_TABLE_SIZE)
        ⟨[], [], false⟩).occupied = true ∧
      (t.entries.getD ((hash_string k + q) % HASH_TABLE_SIZE)
        ⟨[], [], false⟩).key ≠ k) →
    hash_table_get_from t k out_size fuel probe =
      some ((t.entries.getD ((hash_string k + p0) % HASH_TABLE_SIZE)
        ⟨[], [], false⟩).value.take (out_size - 1)) := by
  intro fuel
  induction fuel with
  | zero => intro probe h1 h2 _; exact absurd h2 (by omega)
  | succ fuel ih =>
    intro probe h1 h2 hskip
    by_cases heq : probe = p0
    · subst heq
      rw [hash_table_get_from, if_pos hp0]
      dsimp only
      rw [if_neg (by simp [← List.getD_eq_getElem?_getD, hocc]), if_pos hkey]
    · have hlt : probe < p0 := by omega
      rw [hash_table_get_from, if_pos (by omega : probe < HASH_TABLE_SIZE)]
      dsimp only
      rw [if_neg (by simp [← List.getD_eq_getElem?_getD,
            (hskip probe le_rfl hlt).1]),
          if_neg (by exact (hskip probe le_rfl hlt).2)]
      exact ih (probe + 1) (by omega) (by omega)
        (fun q hq1 hq2 => hskip q (by omega) hq2)

end Msafe

namespace CArr

theorem take_all {α : Type} (l : List α) (n : Nat) (h : l.length ≤ n) :
    l.take n = l := List.take_of_length_le h

/-- `countP` is unchanged by overwriting a cell with an element of the same
predicate value. -/
theorem countP_set_eq {α : Type} (p : α → Bool) :
    ∀ (l : List α) (i : Nat) (x d : α), i < l.length →
    p x = p (l.getD i d) → (l.set i x).countP p = l.countP p := by
  intro l
  induction l with
  | nil => intro i x d hi _; exact absurd hi (by simp)
  | cons a tl ih =>
    intro i x d hi hp
    cases i with
    | zero =>
      simp only [List.set_cons_zero, List.countP_cons]
      have : p x = p a := by simpa [List.getD] using hp
      rw [this]
    | succ i =>
      simp only [List.set_cons_succ, List.countP_cons]
      rw [ih i x d (by simpa using hi) (by simpa [List.getD] using hp)]

end CArr

namespace Msafe

/-- The entry of `t` at slot `i` (C: `table->entries[i]`). -/
def entryAt (t : HashTable) (i : Nat) : HashEntry :=
  t.entries.getD i ⟨[], [], false⟩

/-- Reachability invariant of the string table: the backing array has full
length, and every occupied slot holds a (truncated, hence short) key, is
reachable from its key's hash by an all-occupied probe path, and is the only
slot holding that key. -/
def msInv (t : HashTable) : Prop :=
  t.entries.length = HASH_TABLE_SIZE ∧
  ∀ i, i < HASH_TABLE_SIZE → (entryAt t i).occupied = true →
    (entryAt t i).key.length ≤ KEY_SIZE - 1 ∧
    (∀ p, p ≤ probeDist (hash_string (entryAt t i).key) i →
      (entryAt t ((hash_string (entryAt t i).key + p) % HASH_TABLE_SIZE)).occupied
        = true) ∧
    (∀ j, j < HASH_TABLE_SIZE → (entryAt t j).occupied = true →
      (entryAt t j).key = (entryAt t i).key → j = i)

/-- The table stores, for every key, exactly the last value inserted for it
(truncated to `VALUE_SIZE - 1`), and stores nothing for keys never
inserted. -/
def msModels (t : HashTable) (ops : List (List Nat × List Nat)) : Prop :=
  ∀ k : List Nat,
    (∀ v, lastValue k ops = some v →
      ∃ i, i < HASH_TABLE_SIZE ∧ (entryAt t i).occupied = true ∧
        (entryAt t i).key = k ∧
        (entryAt t i).value = v.take (VALUE_SIZE - 1)) ∧
    (lastValue k ops = none →
      ∀ i, i < HASH_TABLE_SIZE → (entryAt t i).occupied = true →
        (entryAt t i).key ≠ k)

theorem entryAt_init (i : Nat) : entryAt hash_table_init i = ⟨[], [], false⟩ := by
  unfold entryAt hash_table_init
  rw [List.getD_eq_getElem?_getD]
  dsimp only
  rw [List.getElem?_replicate]
  split_ifs <;> rfl

theorem msInv_init : msInv hash_table_init := by
  refine ⟨by simp [hash_table_init], ?_⟩
  intro i _ hocc
  rw [entryAt_init] at hocc
  cases hocc

theorem msModels_init : msModels hash_table_init [] := by
  intro k
  constructor
  · intro v hv; cases hv
  · intro _ i _ hocc
    rw [entryAt_init] at hocc
    cases hocc

theorem lastValue_snoc (k' k : List Nat) (v : List Nat)
    (ops : List (List Nat × List Nat)) :
    lastValue k' (ops ++ [(k, v)]) =
      if k = k' then some v else lastValue k' ops := by
  induction ops with
  | nil => simp [lastValue]
  | cons kv rest ih =>
    obtain ⟨k2, v2⟩ := kv
    show (match lastValue k' (rest ++ [(k, v)]) with
      | some w => some w
      | none => if k2 = k' then some v2 else none) = _
    rw [ih]
    by_cases hk : k = k'
    · rw [if_pos hk, if_pos hk]
    · rw [if_neg hk, if_neg hk]
      rfl

/-- If the table satisfies the invariant and slot `i` holds key `k`, then
`hash_table_get` finds exactly that slot. -/
theorem ms_get_of_stored (t : HashTable) (k : List Nat) (out_size i : Nat)
    (hinv : msInv t) (hi : i < HASH_TABLE_SIZE)
    (hocc : (entryAt t i).occupied = true) (hkey : (entryAt t i).key = k) :
    hash_table_get t k out_size =
      some ((entryAt t i).value.take (out_size - 1)) := by
  obtain ⟨-, hslots⟩ := hinv
  obtain ⟨-, hpath, huniq⟩ := hslots i hi hocc
  rw [hkey] at hpath
  have hhlt : hash_string k < HASH_TABLE_SIZE := hash_string_lt k
  have hd := probeDist_spec (hash_string k) i hhlt hi
  have hocc0 : (t.entries.getD
      ((hash_string k + probeDist (hash_string k) i) % HASH_TABLE_SIZE)
      ⟨[], [], false⟩).occupied = true := by
    rw [hd]; exact hocc
  have hkey0 : (t.entries.getD
      ((hash_string k + probeDist (hash_string k) i) % HASH_TABLE_SIZE)
      ⟨[], [], false⟩).key = k := by
    rw [hd]; exact hkey
  have hskip : ∀ q, 0 ≤ q → q < probeDist (hash_string k) i →
      (t.entries.getD ((hash_string k + q) % HASH_TABLE_SIZE)
        ⟨[], [], false⟩).occupied = true ∧
      (t.entries.getD ((hash_string k + q) % HASH_TABLE_SIZE)
        ⟨[], [], false⟩).key ≠ k := by
    intro q _ hq
    have hqocc := hpath q (le_of_lt hq)
    refine ⟨hqocc, ?_⟩
    intro hqkey
    have hjlt : (hash_string k + q) % HASH_TABLE_SIZE < HASH_TABLE_SIZE :=
      Nat.mod_lt _ (by norm_num [HASH_TABLE_SIZE])
    have := huniq ((hash_string k + q) % HASH_TABLE_SIZE) hjlt hqocc
      (by rw [hkey]; exact hqkey)
    have hq2 := probeDist_unique (hash_string k)
      ((hash_string k + q) % HASH_TABLE_SIZE) q hhlt hjlt
      (lt_trans hq (probeDist_lt _ _)) rfl
    rw [this] at hq2
    omega
  have hmain := ms_get_from_found t k out_size (probeDist (hash_string k) i)
    (probeDist_lt _ _) hocc0 hkey0 HASH_TABLE_SIZE 0 (by omega)
    (by have := probeDist_lt (hash_string k) i; omega) hskip
  unfold hash_table_get
  rw [hmain, hd]
  rfl

end Msafe

namespace CArr

theorem bool_eq_true_of_ne_false {b : Bool} (h : ¬ b = false) : b = true := by
  cases b
  · exact absurd rfl h
  · rfl

end CArr

namespace Msafe

/-- One successful insert preserves the invariant and updates the modelled
map at exactly the inserted key. -/
theorem ms_insert_step (t : HashTable) (ops : List (List Nat × List Nat))
    (k v : List Nat) (hinv : msInv t) (hmod : msModels t ops)
    (hk : k.length ≤ KEY_SIZE - 1)
    (hok : (hash_table_insert t k v).1 = true) :
    msInv (hash_table_insert t k v).2 ∧
    msModels (hash_table_insert t k v).2 (ops ++ [(k, v)]) := by
  obtain ⟨hlen, hslots⟩ := hinv
  have hhlt : hash_string k < HASH_TABLE_SIZE := hash_string_lt k
  have hN : (0 : Nat) < HASH_TABLE_SIZE := by norm_num [HASH_TABLE_SIZE]
  by_cases hex : ∃ p, p < HASH_TABLE_SIZE ∧
      ((entryAt t ((hash_string k + p) % HASH_TABLE_SIZE)).occupied = false ∨
       (entryAt t ((hash_string k + p) % HASH_TABLE_SIZE)).key = k)
  case neg =>
    exfalso
    push_neg at hex
    have hall : ∀ q, 0 ≤ q → q < HASH_TABLE_SIZE →
        (t.entries.getD ((hash_string k + q) % HASH_TABLE_SIZE)
          ⟨[], [], false⟩).occupied = true ∧
        (t.entries.getD ((hash_string k + q) % HASH_TABLE_SIZE)
          ⟨[], [], false⟩).key ≠ k := by
      intro q _ hq
      obtain ⟨h1, h2⟩ := hex q hq
      exact ⟨CArr.bool_eq_true_of_ne_false h1, h2⟩
    have hfail := ms_insert_from_fail t k v HASH_TABLE_SIZE 0 hall
    unfold hash_table_insert at hok
    rw [hfail] at hok
    cases hok
  case pos =>
    obtain ⟨hp0N, hstop⟩ := Nat.find_spec hex
    have hskip : ∀ q, 0 ≤ q → q < Nat.find hex →
        (t.entries.getD ((hash_string k + q) % HASH_TABLE_SIZE)
          ⟨[], [], false⟩).occupied = true ∧
        (t.entries.getD ((hash_string k + q) % HASH_TABLE_SIZE)
          ⟨[], [], false⟩).key ≠ k := by
      intro q _ hq
      have hmin := Nat.find_min hex hq
      push_neg at hmin
      obtain ⟨h1, h2⟩ := hmin (lt_trans hq hp0N)
      exact ⟨CArr.bool_eq_true_of_ne_false h1, h2⟩
    set p0 := Nat.find hex with hp0def
    set i0 := (hash_string k + p0) % HASH_TABLE_SIZE with hi0
    have hi0N : i0 < HASH_TABLE_SIZE := Nat.mod_lt _ hN
    have hi0len : i0 < t.entries.length := by rw [hlen]; exact hi0N
    have hd0 : probeDist (hash_string k) i0 = p0 :=
      (probeDist_unique _ i0 p0 hhlt hi0N hp0N rfl).symm
    have hktake : k.take (KEY_SIZE - 1) = k := CArr.take_all k _ hk
    cases hocc0 : (entryAt t i0).occupied with
    | false =>
      -- fresh insert into the free slot i0
      have hnok : ∀ j, j < HASH_TABLE_SIZE → (entryAt t j).occupied = true →
          (entryAt t j).key ≠ k := by
        intro j hj hjocc hjkey
        obtain ⟨-, hpathj, -⟩ := hslots j hj hjocc
        rw [hjkey] at hpathj
        rcases le_or_lt p0 (probeDist (hash_string k) j) with hle | hlt2
        · have h2 := hpathj p0 hle
          rw [← hi0] at h2
          simp [hocc0] at h2
        · have h3 := (hskip (probeDist (hash_string k) j) (by omega) hlt2).2
          rw [probeDist_spec (hash_string k) j hhlt hj] at h3
          exact h3 hjkey
      have hlast : lastValue k ops = none := by
        cases hl : lastValue k ops with
        | none => rfl
        | some w =>
          obtain ⟨i, hi, hio, hik, -⟩ := (hmod k).1 w hl
          exact absurd hik (hnok i hi hio)
      have hins : hash_table_insert t k v =
          (true, ⟨t.entries.set i0 ⟨k.take (KEY_SIZE - 1),
            v.take (VALUE_SIZE - 1), true⟩, (t.count + 1) % 2 ^ 64⟩) :=
        ms_insert_from_free t k v p0 hp0N hocc0 HASH_TABLE_SIZE 0 (by omega)
          (by omega) hskip
      rw [hins]
      set tf : HashTable := ⟨t.entries.set i0 ⟨k.take (KEY_SIZE - 1),
        v.take (VALUE_SIZE - 1), true⟩, (t.count + 1) % 2 ^ 64⟩ with htf
      have hE0 : entryAt tf i0 = ⟨k, v.take (VALUE_SIZE - 1), true⟩ := by
        show (t.entries.set i0 _).getD i0 _ = _
        rw [CArr.getD_set_self _ _ _ _ hi0len, hktake]
      have hEne : ∀ j, j ≠ i0 → entryAt tf j = entryAt t j := by
        intro j hj
        show (t.entries.set i0 _).getD j _ = _
        exact CArr.getD_set_ne _ _ _ _ _ (fun h => hj h.symm)
      constructor
      · -- msInv tf
        refine ⟨by show (t.entries.set i0 _).length = _; rw [List.length_set]; exact hlen, ?_⟩
        intro i hi hiocc
        by_cases hie : i = i0
        · subst hie
          rw [hE0]
          dsimp only
          refine ⟨hk, ?_, ?_⟩
          · intro p hp
            rw [hd0] at hp
            by_cases hpe : p = p0
            · subst hpe
              rw [← hi0, hE0]
            · have hplt : p < p0 := by omega
              have hocc := (hskip p (by omega) hplt).1
              rw [hEne _ (fun hcontra => by
                rw [hi0] at hcontra
                exact hpe (CArr.probe_inj (lt_trans hplt hp0N) hp0N hcontra))]
              exact hocc
          · intro j hj hjocc hjkey
            by_contra hji
            rw [hEne j hji] at hjocc hjkey
            exact hnok j hj hjocc hjkey
        · rw [hEne i hie] at hiocc
          obtain ⟨hleni, hpathi, huniqi⟩ := hslots i hi hiocc
          refine ⟨by rw [hEne i hie]; exact hleni, ?_, ?_⟩
          · intro p hp
            rw [hEne i hie] at hp ⊢
            by_cases hse : (hash_string (entryAt t i).key + p) % HASH_TABLE_SIZE = i0
            · rw [hse, hE0]
            · rw [hEne _ hse]
              exact hpathi p hp
          · intro j hj hjocc hjkey
            rw [hEne i hie] at hjkey
            by_cases hje : j = i0
            · subst hje
              rw [hE0] at hjkey
              exfalso
              exact hnok i hi hiocc (by
                simp only [] at hjkey
                exact hjkey.symm)
            · rw [hEne j hje] at hjocc hjkey
              exact huniqi j hj hjocc hjkey
      · -- msModels tf (ops ++ [(k, v)])
        intro k'
        rw [lastValue_snoc k' k v ops]
        by_cases hkk : k = k'
        · rw [if_pos hkk]
          constructor
          · intro w hw
            injection hw with hw
            subst hw
            refine ⟨i0, hi0N, by rw [hE0], ?_, by rw [hE0]⟩
            rw [hE0]
            exact hkk
          · intro hnone
            simp at hnone
        · rw [if_neg hkk]
          constructor
          · intro w hw
            obtain ⟨i, hi, hio, hik, hiv⟩ := (hmod k').1 w hw
            have hii0 : i ≠ i0 := by
              intro h
              subst h
              simp [hocc0] at hio
            exact ⟨i, hi, by rw [hEne i hii0]; exact hio,
              by rw [hEne i hii0]; exact hik, by rw [hEne i hii0]; exact hiv⟩
          · intro hnone i hi hio
            by_cases hie : i = i0
            · subst hie
              rw [hE0]
              exact hkk
            · rw [hEne i hie]
              exact ((hmod k').2 hnone) i hi
                (by rw [hEne i hie] at hio; exact hio)
    | true =>
      -- update in place at the slot i0 already holding k
      have hkey0 : (entryAt t i0).key = k := by
        rcases hstop with hfree | hkey
        · rw [hocc0] at hfree
          simp at hfree
        · exact hkey
      have hins : hash_table_insert t k v =
          (true, ⟨t.entries.set i0 { entryAt t i0 with
            value := v.take (VALUE_SIZE - 1) }, t.count⟩) :=
        ms_insert_from_match t k v p0 hp0N hocc0 hkey0 HASH_TABLE_SIZE 0
          (by omega) (by omega) hskip
      rw [hins]
      set tm : HashTable := ⟨t.entries.set i0 { entryAt t i0 with
        value := v.take (VALUE_SIZE - 1) }, t.count⟩ with htm
      have hE0 : entryAt tm i0 = { entryAt t i0 with
          value := v.take (VALUE_SIZE - 1) } := by
        show (t.entries.set i0 _).getD i0 _ = _
        exact CArr.getD_set_self _ _ _ _ hi0len
      have hEne : ∀ j, j ≠ i0 → entryAt tm j = entryAt t j := by
        intro j hj
        show (t.entries.set i0 _).getD j _ = _
        exact CArr.getD_set_ne _ _ _ _ _ (fun h => hj h.symm)
      have hproj : ∀ j, (entryAt tm j).key = (entryAt t j).key ∧
          (entryAt tm j).occupied = (entryAt t j).occupied := by
        intro j
        by_cases hj : j = i0
        · subst hj
          rw [hE0]
          exact ⟨rfl, rfl⟩
        · rw [hEne j hj]
          exact ⟨rfl, rfl⟩
      constructor
      · refine ⟨by show (t.entries.set i0 _).length = _; rw [List.length_set]; exact hlen, ?_⟩
        intro i hi hiocc
        rw [(hproj i).2] at hiocc
        obtain ⟨hleni, hpathi, huniqi⟩ := hslots i hi hiocc
        refine ⟨by rw [(hproj i).1]; exact hleni, ?_, ?_⟩
        · intro p hp
          rw [(hproj i).1] at hp ⊢
          rw [(hproj _).2]
          exact hpathi p hp
        · intro j hj hjocc hjkey
          rw [(hproj j).2] at hjocc
          rw [(hproj j).1, (hproj i).1] at hjkey
          exact huniqi j hj hjocc hjkey
      · intro k'
        rw [lastValue_snoc k' k v ops]
        by_cases hkk : k = k'
        · rw [if_pos hkk]
          constructor
          · intro w hw
            injection hw with hw
            subst hw
            refine ⟨i0, hi0N, ?_, ?_, by rw [hE0]⟩
            · rw [(hproj i0).2]
              exact hocc0
            · rw [(hproj i0).1, hkey0]
              exact hkk
          · intro hnone
            simp at hnone
        · rw [if_neg hkk]
          constructor
          · intro w hw
            obtain ⟨i, hi, hio, hik, hiv⟩ := (hmod k').1 w hw
            have hii0 : i ≠ i0 := by
              intro h
              subst h
              exact hkk (hkey0.symm.trans hik)
            exact ⟨i, hi, by rw [hEne i hii0]; exact hio,
              by rw [hEne i hii0]; exact hik, by rw [hEne i hii0]; exact hiv⟩
          · intro hnone i hi hio
            by_cases hie : i = i0
            · subst hie
              rw [(hproj i0).1, hkey0]
              exact hkk
            · rw [hEne i hie]
              exact ((hmod k').2 hnone) i hi
                (by rw [hEne i hie] at hio; exact hio)

end Msafe

namespace Msafe

/-- Running a sequence of successful inserts with short keys maintains the
invariant and the modelled map. -/
theorem ms_run_spec (ops : List (List Nat × List Nat)) :
    ∀ (t : HashTable) (pref : List (List Nat × List Nat)),
    msInv t → msModels t pref →
    (∀ p ∈ ops, p.1.length ≤ KEY_SIZE - 1) →
    ht_allOk t ops = true →
    msInv (ht_insertList t ops) ∧
    msModels (ht_insertList t ops) (pref ++ ops) := by
  induction ops with
  | nil =>
    intro t pref hinv hmod _ _
    exact ⟨hinv, by simpa using hmod⟩
  | cons kv rest ih =>
    intro t pref hinv hmod hkeys hok
    obtain ⟨k, v⟩ := kv
    rw [ht_allOk, Bool.and_eq_true] at hok
    have hstep := ms_insert_step t pref k v hinv hmod
      (hkeys (k, v) (List.mem_cons_self _ _)) hok.1
    have hrest := ih (hash_table_insert t k v).2 (pref ++ [(k, v)])
      hstep.1 hstep.2 (fun p hp => hkeys p (List.mem_cons_of_mem _ hp)) hok.2
    refine ⟨hrest.1, ?_⟩
    have : pref ++ [(k, v)] ++ rest = pref ++ (k, v) :: rest := by simp
    rw [← this]
    exact hrest.2

end Msafe

/-!
## Claim theorems: string hash table round trip (C3) and re-insert (C4)
-/

/-- C3 (amended): for every sequence of successful inserts from the
initialized table whose keys are shorter than `KEY_SIZE`, `hash_table_get`
on any inserted key — with a value shorter than `VALUE_SIZE` and an output
buffer larger than that value — returns true together with the most
recently inserted value for that key. -/
theorem C3_hash_insert_get_round_trip :
    ∀ ops : List (List Nat × List Nat),
    (∀ p ∈ ops, p.1.length < Msafe.KEY_SIZE) →
    Msafe.ht_allOk Msafe.hash_table_init ops = true →
    ∀ (k v : List Nat) (out_size : Nat),
    Msafe.lastValue k ops = some v →
    v.length < Msafe.VALUE_SIZE → v.length < out_size →
    Msafe.hash_table_get (Msafe.ht_insertList Msafe.hash_table_init ops)
      k out_size = some v := by
  intro ops hkeys hok k v out_size hlast hv hout
  have h32 : Msafe.KEY_SIZE = 32 := rfl
  have h64 : Msafe.VALUE_SIZE = 64 := rfl
  have hrun := Msafe.ms_run_spec ops Msafe.hash_table_init [] Msafe.msInv_init
    Msafe.msModels_init
    (fun p hp => by have := hkeys p hp; omega) hok
  obtain ⟨hinv, hmod⟩ := hrun
  simp only [List.nil_append] at hmod
  obtain ⟨i, hi, hio, hik, hiv⟩ := (hmod k).1 v hlast
  rw [Msafe.ms_get_of_stored _ k out_size i hinv hi hio hik, hiv]
  have hv63 : v.take (Msafe.VALUE_SIZE - 1) = v :=
    CArr.take_all v _ (by omega)
  rw [hv63, CArr.take_all v _ (by omega)]

/-- Witness for C3: three inserts, the first key re-inserted with a new
value; get returns the latest value for that key. -/
theorem C3_hash_insert_get_round_trip_witness :
    ((∀ p ∈ ([([1], [10]), ([2], [20]), ([1], [30])] :
        List (List Nat × List Nat)), p.1.length < Msafe.KEY_SIZE) ∧
      Msafe.ht_allOk Msafe.hash_table_init
        [([1], [10]), ([2], [20]), ([1], [30])] = true ∧
      Msafe.lastValue [1] [([1], [10]), ([2], [20]), ([1], [30])] =
        some [30]) ∧
    Msafe.hash_table_get
      (Msafe.ht_insertList Msafe.hash_table_init
        [([1], [10]), ([2], [20]), ([1], [30])]) [1] Msafe.VALUE_SIZE =
      some [30] :=
  ⟨⟨by decide, by decide, by decide⟩,
   C3_hash_insert_get_round_trip [([1], [10]), ([2], [20]), ([1], [30])]
     (by decide) (by decide) [1] [30] Msafe.VALUE_SIZE (by decide) (by decide)
     (by decide)⟩

/-- Counterexample to C3 as stated: a 32-byte key is accepted by insert
(truncated to 31 bytes by `strncpy`) but then never found by get, because
the stored key no longer compares equal to the queried one. -/
theorem C3_hash_insert_get_round_trip_counterexample :
    (Msafe.hash_table_insert Msafe.hash_table_init
      (List.replicate 32 65) [1]).1 = true ∧
    Msafe.hash_table_get
      (Msafe.hash_table_insert Msafe.hash_table_init
        (List.replicate 32 65) [1]).2
      (List.replicate 32 65) Msafe.VALUE_SIZE = none := by
  constructor
  · decide
  · decide

/-- Counterexample to C4 as stated: in the rule03 integer-key table,
re-inserting key 1 (stored at slot 1 with value 10) does not update in
place — the probe walks past the matching slot to the next free one, so the
insert returns true, the occupied-slot count grows from 1 to 2, and slot 1
still holds the old value. -/
theorem C4_hash_reinsert_counterexample :
    (Rule03.hash_table_insert Rule03.hash_table_init 1 10).1 = true ∧
    Rule03.ht_occupiedCount
      (Rule03.hash_table_insert Rule03.hash_table_init 1 10).2 = 1 ∧
    (Rule03.hash_table_insert
      (Rule03.hash_table_insert Rule03.hash_table_init 1 10).2 1 20).1 =
      true ∧
    Rule03.ht_occupiedCount
      (Rule03.hash_table_insert
        (Rule03.hash_table_insert Rule03.hash_table_init 1 10).2 1 20).2 =
      2 ∧
    (Rule03.hash_table_insert
      (Rule03.hash_table_insert Rule03.hash_table_init 1 10).2 1 20).2.entries.getD
      1 ⟨0, 0, false⟩ = ⟨1, 10, true⟩ := by
  refine ⟨by decide, by decide, by decide, by decide, by decide⟩

/-- C4 (amended): in the memory_safety string-key table, whenever key `k` is
stored at the slot reached after `p0` probes and every earlier slot of the
probe path is occupied by another key (as in every table produced by
successful inserts), `hash_table_insert t k v2` overwrites the value of
exactly that slot, returns true, and leaves the number of occupied slots
unchanged.  The rule03 integer-key table has no in-place update at all (see
the counterexample). -/
theorem C4_hash_reinsert_in_place :
    ∀ (t : Msafe.HashTable) (k v2 : List Nat) (p0 : Nat),
    t.entries.length = Msafe.HASH_TABLE_SIZE →
    p0 < Msafe.HASH_TABLE_SIZE →
    (Msafe.entryAt t ((Msafe.hash_string k + p0) %
      Msafe.HASH_TABLE_SIZE)).occupied = true →
    (Msafe.entryAt t ((Msafe.hash_string k + p0) %
      Msafe.HASH_TABLE_SIZE)).key = k →
    (∀ q, q < p0 →
      (Msafe.entryAt t ((Msafe.hash_string k + q) %
        Msafe.HASH_TABLE_SIZE)).occupied = true ∧
      (Msafe.entryAt t ((Msafe.hash_string k + q) %
        Msafe.HASH_TABLE_SIZE)).key ≠ k) →
    Msafe.hash_table_insert t k v2 =
      (true, ⟨t.entries.set ((Msafe.hash_string k + p0) % Msafe.HASH_TABLE_SIZE)
        { Msafe.entryAt t ((Msafe.hash_string k + p0) % Msafe.HASH_TABLE_SIZE)
          with value := v2.take (Msafe.VALUE_SIZE - 1) }, t.count⟩) ∧
    Msafe.occupiedCount (Msafe.hash_table_insert t k v2).2 =
      Msafe.occupiedCount t := by
  intro t k v2 p0 hlen hp0 hocc hkey hskip
  have hins := Msafe.ms_insert_from_match t k v2 p0 hp0 hocc hkey
    Msafe.HASH_TABLE_SIZE 0 (by omega) (by omega)
    (fun q _ hq => hskip q hq)
  refine ⟨hins, ?_⟩
  rw [show Msafe.hash_table_insert t k v2 = _ from hins]
  unfold Msafe.occupiedCount
  dsimp only
  exact CArr.countP_set_eq _ t.entries _ _ ⟨[], [], false⟩
    (by rw [hlen]; exact Nat.mod_lt _ (by norm_num [Msafe.HASH_TABLE_SIZE]))
    rfl

/-- Witness for C4: after inserting key `[1]` with value `[10]`,
re-inserting `[1]` with `[20]` succeeds, updates the slot in place and
leaves the occupied count unchanged. -/
theorem C4_hash_reinsert_in_place_witness :
    Msafe.hash_table_insert
      (Msafe.hash_table_insert Msafe.hash_table_init [1] [10]).2 [1] [20] =
      (true,
       ⟨(Msafe.hash_table_insert Msafe.hash_table_init [1] [10]).2.entries.set
          ((Msafe.hash_string [1] + 0) % Msafe.HASH_TABLE_SIZE)
          { Msafe.entryAt
              (Msafe.hash_table_insert Msafe.hash_table_init [1] [10]).2
              ((Msafe.hash_string [1] + 0) % Msafe.HASH_TABLE_SIZE) with
            value := List.take (Msafe.VALUE_SIZE - 1) [20] },
        (Msafe.hash_table_insert Msafe.hash_table_init [1] [10]).2.count⟩) ∧
    Msafe.occupiedCount
      (Msafe.hash_table_insert
        (Msafe.hash_table_insert Msafe.hash_table_init [1] [10]).2
        [1] [20]).2 =
      Msafe.occupiedCount
        (Msafe.hash_table_insert Msafe.hash_table_init [1] [10]).2 :=
  C4_hash_reinsert_in_place
    (Msafe.hash_table_insert Msafe.hash_table_init [1] [10]).2 [1] [20] 0
    (by decide) (by decide) (by decide) (by decide)
    (fun q hq => absurd hq (Nat.not_lt_zero q))
